import Mathlib

/-!
Verification of the Telegram→Discord announcement relay
(`src/index.js` and the unnamed near-duplicate variant `src/unnamed/part_000`).

The development shallowly embeds the pipeline:
* the Content Transformer (`transformContent`, both variants),
* the Channel Filter (`passesChannelFilter`, both variants),
* the Forwarder (`sendToDiscord`, `getTelegramFileUrl` abstracted into an
  environment of fallible external calls),
* the Album Aggregator (buffer table keyed by `chatId:mediaGroupId` with a
  debounce timer, modelled as an explicit `fireAt` deadline driven by a
  discrete event simulation),
* the `channel_post` handler tying them together.

Texts are modelled as `List Char` (JS strings; case-insensitive regex
matching is modelled with an explicit case-folding function covering every
character class that occurs in the source's patterns).
-/

namespace TgDs

/-- JS strings, modelled as lists of unicode scalars. -/
abbrev Str := List Char

/-- Case folding used by the `/i` regex flag for the characters relevant to the
source's patterns: ASCII `A`–`Z`, Latin-1 uppercase `À`–`Þ` (except `×`,
covering the mojibake characters `Ð`/`ð` and `Â`/`â` of `part_000`),
and `Ÿ` (U+0178) ↔ `ÿ` (U+00FF). -/
def toLowerJS (c : Char) : Char :=
  if 'A' ≤ c ∧ c ≤ 'Z' then Char.ofNat (c.toNat + 32)
  else if 'À' ≤ c ∧ c ≤ 'Þ' ∧ c ≠ '×' then Char.ofNat (c.toNat + 32)
  else if c = 'Ÿ' then 'ÿ'
  else c

/-- The character set matched by the JS regex class `\s` (also the set removed
by `String.prototype.trim`). -/
def wsChars : Str :=
  ['\t', '\n', '\x0b', '\x0c', '\r', ' ', ' ', ' ', ' ', ' ',
   ' ', ' ', ' ', ' ', ' ', ' ', ' ', ' ',
   ' ', ' ', ' ', ' ', ' ', '　', '﻿']

def isWsJS (c : Char) : Bool := decide (c ∈ wsChars)

/-- JS regex word characters (`\w`, used by `\b` word boundaries). -/
def isWordChar (c : Char) : Bool :=
  ('a' ≤ c && c ≤ 'z') || ('A' ≤ c && c ≤ 'Z') || ('0' ≤ c && c ≤ '9') || c = '_'

/-- Case-insensitively consume the literal `pat` from the front of `s`,
returning the remainder on success. -/
def dropCI : Str → Str → Option Str
  | [], s => some s
  | _ :: _, [] => none
  | p :: ps, c :: cs => if toLowerJS c = toLowerJS p then dropCI ps cs else none

/-- Greedily split off the maximal leading run of non-whitespace characters
(the `\S+` part of a match). -/
def takeNonWs : Str → Str × Str
  | [] => ([], [])
  | c :: cs =>
    if isWsJS c then ([], c :: cs)
    else
      let p := takeNonWs cs
      (c :: p.1, p.2)

/-- After the literal `http` has been consumed, consume `s?://@` with the
regex's backtracking on the optional `s`. -/
def afterScheme (s1 : Str) : Option Str :=
  match s1 with
  | [] => none
  | c :: cs =>
    if toLowerJS c = 's' then dropCI [':', '/', '/', '@'] cs
    else dropCI [':', '/', '/', '@'] (c :: cs)

/-- A match of `/https?:\/\/@\S+/i` anchored at the front of `s`; returns the
remainder after the (greedy) match. -/
def matchMalformed (s : Str) : Option Str :=
  match dropCI ['h', 't', 't', 'p'] s with
  | none => none
  | some s1 =>
    match afterScheme s1 with
    | none => none
    | some s2 =>
      match s2 with
      | [] => none
      | c :: cs => if isWsJS c then none else some (takeNonWs cs).2

/-- `text.replace(/https?:\/\/@\S+/gi, "")`, with explicit fuel so the
function computes in the kernel; `stripMalformed` instantiates the fuel. -/
def stripFuel : Nat → Str → Str
  | 0, _ => []
  | _ + 1, [] => []
  | fuel + 1, c :: cs =>
    match matchMalformed (c :: cs) with
    | some rest => stripFuel fuel rest
    | none => c :: stripFuel fuel cs

def stripMalformed (s : Str) : Str := stripFuel s.length s

/-- `true` iff `/https?:\/\/@\S+/i` matches somewhere in `s`. -/
def hasMal : Str → Bool
  | [] => false
  | c :: cs => (matchMalformed (c :: cs)).isSome || hasMal cs

def stpWord : Str := "splitthepicks".data

def tmeStpPat : Str := "t.me/splitthepicks".data

/-- `\b` after a match: next character absent or not a word character. -/
def boundaryAfter : Str → Bool
  | [] => true
  | c :: _ => !(isWordChar c)

/-- Consume `pat` case-insensitively, then require a `\b`. -/
def checkTail (pat : Str) (s : Str) : Bool :=
  match dropCI pat s with
  | some r => boundaryAfter r
  | none => false

/-- The alternative `https?:\/\/t\.me\/splitthepicks\b` anchored at `s`. -/
def alt3At (s : Str) : Bool :=
  match dropCI ['h', 't', 't', 'p'] s with
  | none => false
  | some s1 =>
    match s1 with
    | [] => false
    | c :: cs =>
      if toLowerJS c = 's' then checkTail ("://t.me/splitthepicks".data) cs
      else checkTail ("://t.me/splitthepicks".data) (c :: cs)

/-- One position of
`/@splitthepicks\b|t\.me\/splitthepicks\b|https?:\/\/t\.me\/splitthepicks\b|\bsplitthepicks\b/i`;
`prev` is the character before the position (for the leading `\b`). -/
def altAt (prev : Option Char) (s : Str) : Bool :=
  checkTail ('@' :: stpWord) s ||
  checkTail tmeStpPat s ||
  alt3At s ||
  ((match prev with | none => true | some p => !(isWordChar p)) && checkTail stpWord s)

def hasSTPAux (prev : Option Char) : Str → Bool
  | [] => false
  | c :: cs => altAt prev (c :: cs) || hasSTPAux (some c) cs

/-- `part_000`'s marker test (step 2 of `transformContent`). -/
def hasSTP (s : Str) : Bool := hasSTPAux none s

/-- Case-insensitive substring test (a regex `.test` with a literal pattern). -/
def containsCI (pat : Str) : Str → Bool
  | [] => (dropCI pat []).isSome
  | c :: cs => (dropCI pat (c :: cs)).isSome || containsCI pat cs

/-- `text.split(/\r?\n/)`. -/
def splitRN : Str → List Str
  | [] => [[]]
  | '\r' :: '\n' :: rest => [] :: splitRN rest
  | '\n' :: rest => [] :: splitRN rest
  | c :: rest =>
    match splitRN rest with
    | l :: ls => (c :: l) :: ls
    | [] => [[c]]

/-- `text.split("\n")`. -/
def splitNL : Str → List Str
  | [] => [[]]
  | '\n' :: rest => [] :: splitNL rest
  | c :: rest =>
    match splitNL rest with
    | l :: ls => (c :: l) :: ls
    | [] => [[c]]

/-- `lines.join("\n")`. -/
def joinNL : List Str → Str
  | [] => []
  | [l] => l
  | l :: ls => l ++ '\n' :: joinNL ls

/-- `String.prototype.trim`. -/
def trimJS (l : Str) : Str :=
  ((l.dropWhile isWsJS).reverse.dropWhile isWsJS).reverse

/-- `part_000`'s canonical footer with the source's default configuration
(`DISCORD_CONTACT_USER_ID = 1374514852701143091`,
`TELEGRAM_CONTACT_URL = https://t.me/splitthepicks`); the `ðŸ‘‰` and `â€¢`
characters are exactly the (mojibake) characters in the source file. -/
def footerP0 : Str :=
  "DM ðŸ‘‰ <@1374514852701143091> â€¢ https://t.me/splitthepicks".data

/-- `/^\s*DM\s*ðŸ‘‰/i` (the arrow glyph is the four mojibake characters of the
source file). -/
def isDMLine (l : Str) : Bool :=
  match dropCI ['D', 'M'] (l.dropWhile isWsJS) with
  | none => false
  | some l2 => (dropCI ['ð', 'Ÿ', '‘', '‰'] (l2.dropWhile isWsJS)).isSome

/-- `/splitthepicks|t\.me\/splitthepicks/i` on one line. -/
def lineHasSTP (l : Str) : Bool := containsCI stpWord l || containsCI tmeStpPat l

def lineMatches (l : Str) : Bool := isDMLine l || lineHasSTP l

/-- Replace a matched contact line with the canonical footer (step 3). -/
def lineF (l : Str) : Str := if lineMatches l then footerP0 else l

/-- Step 5 of `part_000`: keep only the first line whose trim equals the
footer's trim (`seen` is the `seenFooter` flag of the source's filter). -/
def dedupeGo : List Str → Bool → List Str
  | [], _ => []
  | l :: ls, seen =>
    if trimJS l = trimJS footerP0 then
      if seen then dedupeGo ls true else l :: dedupeGo ls true
    else l :: dedupeGo ls seen

/-- `out.endsWith("\n")`. -/
def endsNL (s : Str) : Bool := s.getLast? = some '\n'

/-- Steps 3–5 of `part_000`'s `transformContent` (only reached when the
marker test succeeded). -/
def rewriteSTP (s : Str) : Str :=
  let lines := splitRN s
  let replaced := lines.any lineMatches
  let out := joinNL (lines.map lineF)
  let out2 :=
    if replaced then out
    else (if endsNL out then out else out ++ ['\n']) ++ '\n' :: footerP0
  joinNL (dedupeGo (splitNL out2) false)

/-- `transformContent` of `src/unnamed/part_000` (the spec's canonical
Content Transformer), with the source's default configuration. -/
def transformContentP0 (raw : Str) : Str :=
  let text := stripMalformed raw
  if hasSTP text then rewriteSTP text else text

/-! ### The `src/index.js` variant of the Content Transformer -/

/-- Global case-insensitive replacement of the literal `pat` followed by a
word boundary (`text.replace(/@handle\b/gi, repl)`), with fuel for kernel
computability. An empty pattern is never used; it returns the input. -/
def replaceTokenF (pat repl : Str) : Nat → Str → Str
  | 0, _ => []
  | _ + 1, [] => []
  | fuel + 1, c :: cs =>
    match pat, dropCI pat (c :: cs) with
    | _ :: _, some r =>
      if boundaryAfter r then repl ++ replaceTokenF pat repl fuel r
      else c :: replaceTokenF pat repl fuel cs
    | _, _ => c :: replaceTokenF pat repl fuel cs

def replaceToken (pat repl : Str) (s : Str) : Str := replaceTokenF pat repl s.length s

/-- A match of `/DM\s*👉\s*/i` anchored at the front of `s` (real emoji in
`index.js`); returns the remainder after the greedy match. -/
def matchDMArrow (s : Str) : Option Str :=
  match dropCI ['D', 'M'] s with
  | none => none
  | some s1 =>
    match dropCI ['👉'] (s1.dropWhile isWsJS) with
    | none => none
    | some s2 => some (s2.dropWhile isWsJS)

/-- `text.replace(/DM\s*👉\s*/gi, "DM👉 ")`, with fuel. -/
def replaceDMArrowF : Nat → Str → Str
  | 0, _ => []
  | _ + 1, [] => []
  | fuel + 1, c :: cs =>
    match matchDMArrow (c :: cs) with
    | some r => ("DM👉 ".data) ++ replaceDMArrowF fuel r
    | none => c :: replaceDMArrowF fuel cs

def replaceDMArrow (s : Str) : Str := replaceDMArrowF s.length s

/-- One position of `/https?:\/\/t\.me\/splitthepicks/i` (no `\b`). -/
def tmeLinkAt (s : Str) : Bool :=
  match dropCI ['h', 't', 't', 'p'] s with
  | none => false
  | some s1 =>
    match s1 with
    | [] => false
    | c :: cs =>
      if toLowerJS c = 's' then (dropCI ("://t.me/splitthepicks".data) cs).isSome
      else (dropCI ("://t.me/splitthepicks".data) (c :: cs)).isSome

def containsTmeLink : Str → Bool
  | [] => false
  | c :: cs => tmeLinkAt (c :: cs) || containsTmeLink cs

/-- `index.js`'s `telegramFooter()` with the default contact URL. -/
def telegramFooterIdx : Str :=
  "Message me on telegram:\n👉 https://t.me/splitthepicks".data

/-- `**${lines[0].trim()}**` applied to the first line when its trim is
non-empty. -/
def boldFirstLine (lines : List Str) : List Str :=
  match lines with
  | [] => []
  | l0 :: rest =>
    if trimJS l0 ≠ [] then ("**".data ++ trimJS l0 ++ "**".data) :: rest else l0 :: rest

/-- `transformContent` of `src/index.js`, with the source's default
configuration (`TELEGRAM_CONTACT_URL = https://t.me/splitthepicks`). -/
def transformContentIdx (raw : Str) : Str :=
  if raw = [] then raw
  else
    let text := stripMalformed raw
    let text := replaceToken ('@' :: stpWord) ("https://t.me/splitthepicks ".data) text
    let text := replaceToken ("@vegaskiller".data) ("https://t.me/splitthepicks ".data) text
    let text := replaceDMArrow text
    let text := joinNL (boldFirstLine (splitNL text))
    if containsTmeLink text then text else text ++ ('\n' :: '\n' :: telegramFooterIdx)

/-! ### Channel Filter (both variants) -/

/-- The chat metadata of an inbound channel post. -/
structure Chat where
  id : Int
  username : Option Str
deriving DecidableEq, Repr

/-- JS truthiness of an optional string configuration value (`undefined` and
`""` are falsy). -/
def jsTruthy : Option Str → Bool
  | none => false
  | some s => s ≠ []

/-- `@${chat.username}` when a username is present (`asAt`). -/
def atUsername (c : Chat) : Option Str :=
  c.username.map (fun u => '@' :: u)

/-- `passesChannelFilter` of `src/unnamed/part_000`: accept everything when
`TELEGRAM_CHANNEL_ID` is unset, reject when chat metadata is absent, else
compare `@username` and the decimal chat id against the configured value. -/
def passesChannelFilterP0 (telegramChannelId : Option Str) (chat : Option Chat) : Bool :=
  if !jsTruthy telegramChannelId then true
  else
    match chat with
    | none => false
    | some c =>
      (match telegramChannelId with
       | some cid => atUsername c == some cid || (toString c.id).data == cid
       | none => false)

/-- `passesChannelFilter` of `src/index.js`: reject when chat metadata is
absent; build the allow-list from `TELEGRAM_CHANNEL_ID` and
`TELEGRAM_CHANNEL_ID_TEST` with falsy values removed (`.filter(Boolean)`),
and accept iff some entry equals `@username` or the decimal chat id. -/
def passesChannelFilterIdx (cid cidTest : Option Str) (chat : Option Chat) : Bool :=
  match chat with
  | none => false
  | some c =>
    let allowed := ([cid, cidTest].filterMap id).filter (fun s => s ≠ [])
    allowed.any (fun a => atUsername c == some a || a == (toString c.id).data)

/-! ### Forwarder and handler

External collaborators (Telegram `getFile`, media byte fetches, the Discord
webhook POST) are abstracted into an environment of fallible calls; media
bytes are opaque `Nat`s. -/

/-- The error taxonomy of the spec: media-locator resolution failure, media
fetch failure, webhook delivery failure. -/
inductive Err where
  | resolution
  | fetch (status : Nat)
  | delivery (status : Nat)
deriving DecidableEq, Repr

/-- A `{ url, filename }` entry of `sendToDiscord`'s `files` argument. -/
structure FileEntry where
  url : Str
  filename : Str
deriving DecidableEq, Repr

/-- The single multipart webhook request built by `sendToDiscord`:
the `payload_json` content and the attached `files[i]` parts. -/
structure Request where
  content : Str
  attachments : List (Str × Nat)
deriving DecidableEq, Repr

structure Env where
  /-- `getTelegramFileUrl`: resolve a `file_id` to a fetchable URL. -/
  getFile : Str → Except Err Str
  /-- `fetch(url)` for a media file's bytes. -/
  fetchBytes : Str → Except Err Nat
  /-- `fetch(DISCORD_WEBHOOK_URL, { method: "POST", body: form })`. -/
  postWebhook : Request → Except Err Unit

/-- `s1 || s2` on JS strings (empty is falsy). -/
def jsOrS (s d : Str) : Str := if s = [] then d else s

/-- The fetch loop of `sendToDiscord`: fetch every file's bytes in order and
pair them with `filename || \`media-${i}.jpg\``. -/
def fetchAll (env : Env) : Nat → List FileEntry → Except Err (List (Str × Nat))
  | _, [] => Except.ok []
  | i, f :: fs => do
    let b ← env.fetchBytes f.url
    let rest ← fetchAll env (i + 1) fs
    Except.ok ((jsOrS f.filename (("media-" ++ toString i ++ ".jpg").data), b) :: rest)

/-- `sendToDiscord({ content, files })`: truncate the content to 1900
characters, fetch all media bytes, and issue the single webhook POST carrying
all of them; returns the posted request. -/
def sendToDiscord (env : Env) (content : Str) (files : List FileEntry) : Except Err Request := do
  let atts ← fetchAll env 0 files
  let req : Request := ⟨(jsOrS content []).take 1900, atts⟩
  let _ ← env.postWebhook req
  Except.ok req

/-- An inbound `channel_post` message (the fields the handler reads). -/
structure Msg where
  chat : Option Chat
  photos : List Str
  video : Option Str
  document : Option (Str × Option Str)
  mediaGroupId : Option Str
  caption : Option Str
  text : Option Str
  messageId : Nat

/-- `msg?.caption || msg?.text || ""`. -/
def normalizeCaption (m : Msg) : Str :=
  match m.caption with
  | some s => if s = [] then (match m.text with | some t => jsOrS t [] | none => []) else s
  | none => (match m.text with | some t => jsOrS t [] | none => [])

/-- One album buffer: `{ caption, items, timer }`, the timer modelled as the
absolute deadline `fireAt = (time of last arrival) + 1500`. -/
structure Buf where
  caption : Str
  items : List FileEntry
  fireAt : Nat
deriving DecidableEq, Repr

/-- The live-buffer table `albumBuffer` (a `Map`: insertion-ordered
association list with in-place replacement). -/
abbrev AggState := List (Str × Buf)

def lookupBuf (key : Str) : AggState → Option Buf
  | [] => none
  | (k, b) :: rest => if k = key then some b else lookupBuf key rest

/-- `Map.set`: replace in place if present, else append. -/
def setBuf (key : Str) (b : Buf) : AggState → AggState
  | [] => [(key, b)]
  | (k, b') :: rest => if k = key then (key, b) :: rest else (k, b') :: setBuf key b rest

/-- The album branch of the handler (lines 170–196 of `part_000`, 161–190 of
`index.js`): get-or-create the buffer, fill the caption only if still empty,
append the resolved item, and reset the quiet-window timer to `now + 1500`. -/
def albumStep (st : AggState) (now : Nat) (key : Str) (caption : Str) (item : FileEntry) :
    AggState :=
  let existing := (lookupBuf key st).getD ⟨[], [], 0⟩
  let existing :=
    if existing.caption = [] ∧ caption ≠ [] then { existing with caption := caption }
    else existing
  let existing := { existing with items := existing.items ++ [item], fireAt := now + 1500 }
  setBuf key existing st

/-- What a firing timer hands to the Forwarder: `existing.caption || ""` and
`existing.items.slice(0, 10)`. -/
def flushUnit (b : Buf) : Str × List FileEntry :=
  (jsOrS b.caption [], b.items.take 10)

/-- The timer callback body: the flush sends and catches any error, logging
`"Album send failed"`; it never lets an error escape. -/
def flushAlbum (env : Env) (b : Buf) : Except Err (List Str) :=
  match sendToDiscord env (jsOrS b.caption []) (b.items.take 10) with
  | Except.ok _ => Except.ok []
  | Except.error _ => Except.ok [("Album send failed".data)]

/-- What the handler did with an accepted post. -/
inductive Outcome where
  | filtered
  | sentNow (req : Request)
  | buffered (key : Str)

/-- `${msg.chat.id}:${mediaGroupId}`. A missing chat would be a `TypeError`
in JS; real `channel_post` updates always carry `chat`, and no claim
exercises the album path without it, so it is modelled as the literal string
`undefined`. -/
def albumKey (m : Msg) (gid : Str) : Str :=
  (match m.chat with
   | some c => (toString c.id).data
   | none => ("undefined".data)) ++ ':' :: gid

/-- The `bot.on("channel_post")` handler of `part_000` (the `index.js` one has
the same structure with its own filter/transformer): filter, classify media,
transform the caption, then either send immediately (pure text or single
media) or run the album branch. Errors of the immediate sends and of
`getTelegramFileUrl` are not caught here — they propagate as the rejection of
the handler's promise. -/
def handleP0 (env : Env) (cfg : Option Str) (st : AggState) (now : Nat) (m : Msg) :
    Except Err (AggState × Outcome) :=
  if !passesChannelFilterP0 cfg m.chat then Except.ok (st, Outcome.filtered)
  else
    let caption := transformContentP0 (normalizeCaption m)
    let fileSel : Option (Str × Str) :=
      match m.photos.getLast? with
      | some p => some (p, ("image-" ++ toString m.messageId ++ ".jpg").data)
      | none =>
        match m.video with
        | some v => some (v, ("video-" ++ toString m.messageId ++ ".mp4").data)
        | none =>
          match m.document with
          | some (d, name) =>
            some (d, jsOrS (name.getD []) (("file-" ++ toString m.messageId).data))
          | none => none
    match fileSel with
    | none => do
      let req ← sendToDiscord env (jsOrS caption ("(no text)".data)) []
      Except.ok (st, Outcome.sentNow req)
    | some (fid, fname) => do
      let url ← env.getFile fid
      match m.mediaGroupId with
      | some gid =>
        if gid ≠ [] then
          Except.ok (albumStep st now (albumKey m gid) caption ⟨url, fname⟩,
            Outcome.buffered (albumKey m gid))
        else do
          let req ← sendToDiscord env (jsOrS caption []) [⟨url, fname⟩]
          Except.ok (st, Outcome.sentNow req)
      | none => do
        let req ← sendToDiscord env (jsOrS caption []) [⟨url, fname⟩]
        Except.ok (st, Outcome.sentNow req)

/-! ### Event simulation of the Album Aggregator's debounce -/

/-- One album-branch arrival: its event-loop time, album key, transformed
caption and resolved media item. -/
structure Arrival where
  t : Nat
  key : Str
  caption : Str
  item : FileEntry

/-- Fire every timer whose deadline has passed (the event loop runs due
`setTimeout` callbacks before later events): flush and drop those buffers. -/
def fireDue (now : Nat) (st : AggState) : List (Str × List FileEntry) × AggState :=
  ((st.filter (fun kb => kb.2.fireAt ≤ now)).map (fun kb => flushUnit kb.2),
   st.filter (fun kb => !(kb.2.fireAt ≤ now)))

/-- Run a sequence of album arrivals (in event order), then let every
remaining timer fire; returns all flushed units in order. -/
def runGo : List Arrival → AggState → List (Str × List FileEntry)
  | [], st => st.map (fun kb => flushUnit kb.2)
  | a :: rest, st =>
    let p := fireDue a.t st
    p.1 ++ runGo rest (albumStep p.2 a.t a.key a.caption a.item)

def runAlbum (arrivals : List Arrival) : List (Str × List FileEntry) :=
  runGo arrivals []

/-- The caption-merge step of `albumStep`, abstracted. -/
def capStep (c : Str) (a : Arrival) : Str :=
  if c = [] ∧ a.caption ≠ [] then a.caption else c

/-- First non-empty caption among the arrivals (empty if none). -/
def firstNonEmptyCaption (arrivals : List Arrival) : Str :=
  ((arrivals.map Arrival.caption).filter (fun c => c ≠ [])).headD []

/-- The dedupe test of step 5: the line's trim equals the footer's trim. -/
def isFooterLine (l : Str) : Bool := decide (trimJS l = trimJS footerP0)

/-- How many lines (in the JS sense, split on `"\n"`) of `s` are the
canonical footer, up to trimming — the sense in which the footer occurs
"exactly once". -/
def footerLineCount (s : Str) : Nat := (splitNL s).countP isFooterLine

/-- An environment whose webhook POST always fails with `e` (resolution and
media fetches succeed). -/
def envPostFail (e : Err) : Env :=
  ⟨fun _ => Except.ok [], fun _ => Except.ok 0, fun _ => Except.error e⟩

/-- An environment where every external call succeeds. -/
def envAllOk : Env :=
  ⟨fun _ => Except.ok ("url".data), fun _ => Except.ok 7, fun _ => Except.ok ()⟩

/-- A pure-text channel post with no chat metadata and no text. -/
def msgPureText : Msg := ⟨none, [], none, none, none, none, none, 1⟩

/-- An environment whose media-URL resolution (`getTelegramFileUrl`) always
fails with `e` (fetches and the webhook POST succeed). -/
def envResolveFail (e : Err) : Env :=
  ⟨fun _ => Except.error e, fun _ => Except.ok 0, fun _ => Except.ok ()⟩

/-- An environment whose media-byte fetches always fail with `e` (resolution
and the webhook POST succeed). -/
def envFetchFail (e : Err) : Env :=
  ⟨fun _ => Except.ok ("url".data), fun _ => Except.error e, fun _ => Except.ok ()⟩

/-- A single-photo channel post outside any album (no `media_group_id`). -/
def msgPhoto : Msg := ⟨none, [("pid".data)], none, none, none, none, none, 2⟩

/-! ## Lemmas about case folding, whitespace and `dropCI` -/

theorem ws_toLower_self {c : Char} (h : isWsJS c = true) : toLowerJS c = c := by
  have hall : ∀ x ∈ wsChars, toLowerJS x = x := by decide
  exact hall c (by simpa [isWsJS] using h)

theorem nonws_of_map_eq {l pat : Str} (hmap : l.map toLowerJS = pat)
    (hpat : ∀ p ∈ pat, isWsJS p = false) : ∀ x ∈ l, isWsJS x = false := by
  intro x hx
  by_contra hxx
  have hxt : isWsJS x = true := by
    cases hw : isWsJS x with
    | false => exact absurd hw hxx
    | true => rfl
  have h1 : toLowerJS x ∈ pat := hmap ▸ List.mem_map_of_mem toLowerJS hx
  rw [ws_toLower_self hxt] at h1
  exact absurd (hpat x h1) (by simp [hxt])

theorem dropCI_some {p : Str} : ∀ {s r : Str}, dropCI p s = some r →
    ∃ pre, s = pre ++ r ∧ pre.map toLowerJS = p.map toLowerJS := by
  induction p with
  | nil =>
    intro s r h
    have hs : s = r := by simpa [dropCI] using h
    exact ⟨[], by simp [hs], by simp⟩
  | cons p0 ps ih =>
    intro s r h
    cases s with
    | nil => simp [dropCI] at h
    | cons c cs =>
      by_cases hc : toLowerJS c = toLowerJS p0
      · simp only [dropCI, if_pos hc] at h
        obtain ⟨pre, h1, h2⟩ := ih h
        exact ⟨c :: pre, by simp [h1], by simp [h2, hc]⟩
      · simp [dropCI, if_neg hc] at h

theorem dropCI_of_map {p : Str} : ∀ {pre : Str}, pre.map toLowerJS = p.map toLowerJS →
    ∀ r : Str, dropCI p (pre ++ r) = some r := by
  induction p with
  | nil =>
    intro pre h r
    have : pre = [] := by simpa using congrArg List.length h
    simp [this, dropCI]
  | cons p0 ps ih =>
    intro pre h r
    cases pre with
    | nil => simp at h
    | cons c pre' =>
      simp only [List.map_cons, List.cons.injEq] at h
      simp [dropCI, h.1, ih h.2 r]

theorem dropCI_length {p s r : Str} (h : dropCI p s = some r) :
    s.length = p.length + r.length := by
  obtain ⟨pre, h1, h2⟩ := dropCI_some h
  have : pre.length = p.length := by
    have := congrArg List.length h2
    simpa using this
  simp [h1, this]

theorem dropCI_append {p s r : Str} (h : dropCI p s = some r) (t : Str) :
    dropCI p (s ++ t) = some (r ++ t) := by
  obtain ⟨pre, h1, h2⟩ := dropCI_some h
  rw [h1, List.append_assoc]
  exact dropCI_of_map h2 _

/-! ## Lemmas about `takeNonWs` and `matchMalformed` -/

theorem takeNonWs_eq : ∀ l : Str, l = (takeNonWs l).1 ++ (takeNonWs l).2 := by
  intro l
  induction l with
  | nil => rfl
  | cons c cs ih =>
    by_cases h : isWsJS c
    · simp [takeNonWs, h]
    · simp only [takeNonWs, Bool.not_eq_true] at *
      simp [h]
      exact ih

theorem takeNonWs_snd : ∀ l : Str, (takeNonWs l).2 = [] ∨
    ∃ d r, (takeNonWs l).2 = d :: r ∧ isWsJS d = true := by
  intro l
  induction l with
  | nil => left; rfl
  | cons c cs ih =>
    by_cases h : isWsJS c
    · right; exact ⟨c, cs, by simp [takeNonWs, h], h⟩
    · simpa [takeNonWs, h] using ih

/-- The shape of the literal part of a malformed-link match:
`http` + (`://@` or `s://@`), case-insensitively. -/
def litOK (lit : Str) : Prop :=
  ∃ l4 lA, lit = l4 ++ lA ∧ l4.map toLowerJS = ("http".data) ∧
    (lA.map toLowerJS = ("://@".data) ∨ lA.map toLowerJS = ("s://@".data))

theorem litOK_nonws {lit : Str} (h : litOK lit) : ∀ x ∈ lit, isWsJS x = false := by
  obtain ⟨l4, lA, rfl, h4, hA⟩ := h
  intro x hx
  rcases List.mem_append.mp hx with hx4 | hxA
  · exact nonws_of_map_eq h4 (by decide) x hx4
  · rcases hA with hA | hA
    · exact nonws_of_map_eq hA (by decide) x hxA
    · exact nonws_of_map_eq hA (by decide) x hxA

theorem afterScheme_some {s1 r : Str} (h : afterScheme s1 = some r) :
    ∃ pre, s1 = pre ++ r ∧
      (pre.map toLowerJS = ("://@".data) ∨ pre.map toLowerJS = ("s://@".data)) := by
  cases s1 with
  | nil => simp [afterScheme] at h
  | cons c cs =>
    by_cases hc : toLowerJS c = 's'
    · simp only [afterScheme, if_pos hc] at h
      obtain ⟨pre, h1, h2⟩ := dropCI_some h
      refine ⟨c :: pre, by simp [h1], Or.inr ?_⟩
      simpa [hc] using h2
    · simp only [afterScheme, if_neg hc] at h
      obtain ⟨pre, h1, h2⟩ := dropCI_some h
      exact ⟨pre, h1, Or.inl (by simpa using h2)⟩

theorem mm_some_shape {s r : Str} (h : matchMalformed s = some r) :
    ∃ lit c mid, s = lit ++ c :: (mid ++ r) ∧ litOK lit ∧ isWsJS c = false ∧
      (r = [] ∨ ∃ d r', r = d :: r' ∧ isWsJS d = true) := by
  cases h1 : dropCI ['h', 't', 't', 'p'] s with
  | none => simp [matchMalformed, h1] at h
  | some s1 =>
    cases h2 : afterScheme s1 with
    | none => simp [matchMalformed, h1, h2] at h
    | some s2 =>
      cases s2 with
      | nil => simp [matchMalformed, h1, h2] at h
      | cons c cs =>
        by_cases hc : isWsJS c
        · simp [matchMalformed, h1, h2, hc] at h
        · simp only [matchMalformed, h1, h2, if_neg hc] at h
          obtain ⟨pre4, e1, e4⟩ := dropCI_some h1
          obtain ⟨preA, e2, eA⟩ := afterScheme_some h2
          have hr : r = (takeNonWs cs).2 := by simpa using h.symm
          refine ⟨pre4 ++ preA, c, (takeNonWs cs).1, ?_, ⟨pre4, preA, rfl, by simpa using e4, eA⟩,
            by simpa using hc, ?_⟩
          · rw [e1, e2, hr, List.append_assoc]
            congr 2
            exact congrArg (c :: ·) (takeNonWs_eq cs)
          · rw [hr]; exact takeNonWs_snd cs

theorem mm_isSome_of_shape {s : Str} (lit : Str) (c : Char) (rest : Str)
    (h : s = lit ++ c :: rest) (hl : litOK lit) (hc : isWsJS c = false) :
    (matchMalformed s).isSome = true := by
  obtain ⟨l4, lA, rfl, h4, hA⟩ := hl
  have e1 : dropCI ['h', 't', 't', 'p'] s = some (lA ++ c :: rest) := by
    rw [h, List.append_assoc]
    exact dropCI_of_map (by simpa using h4) _
  rcases hA with hA | hA
  · -- `lA` is `://@`: the optional `s` is not taken
    cases lA with
    | nil => simp at hA
    | cons a lA' =>
      simp only [List.map_cons, List.cons.injEq] at hA
      have ha : ¬ toLowerJS a = 's' := by rw [hA.1]; decide
      have ed : dropCI [':', '/', '/', '@'] (a :: (lA' ++ c :: rest)) = some (c :: rest) := by
        have := @dropCI_of_map [':', '/', '/', '@'] (a :: lA')
          (by simp [hA.1, hA.2] <;> decide) (c :: rest)
        simpa using this
      have e2 : afterScheme (a :: (lA' ++ c :: rest)) = some (c :: rest) := by
        simp [afterScheme, if_neg ha, ed]
      have e1' : dropCI ['h', 't', 't', 'p'] s = some (a :: (lA' ++ c :: rest)) := by
        simpa using e1
      simp [matchMalformed, e1', e2, hc]
  · -- `lA` is `s://@`: the optional `s` is taken
    cases lA with
    | nil => simp at hA
    | cons a lA' =>
      simp only [List.map_cons, List.cons.injEq] at hA
      have ed : dropCI [':', '/', '/', '@'] (lA' ++ c :: rest) = some (c :: rest) :=
        dropCI_of_map (by simp [hA.2] <;> decide) _
      have e2 : afterScheme (a :: (lA' ++ c :: rest)) = some (c :: rest) := by
        simp [afterScheme, if_pos hA.1, ed]
      have e1' : dropCI ['h', 't', 't', 'p'] s = some (a :: (lA' ++ c :: rest)) := by
        simpa using e1
      simp [matchMalformed, e1', e2, hc]

theorem mm_isSome_append {s v : Str} (h : (matchMalformed s).isSome = true) :
    (matchMalformed (s ++ v)).isSome = true := by
  obtain ⟨r, hr⟩ := Option.isSome_iff_exists.mp h
  obtain ⟨lit, c, mid, hs, hl, hc, _⟩ := mm_some_shape hr
  exact mm_isSome_of_shape lit c ((mid ++ r) ++ v)
    (by rw [hs]; simp [List.append_assoc]) hl hc

theorem mm_none_ws_head {c : Char} {cs : Str} (h : isWsJS c = true) :
    matchMalformed (c :: cs) = none := by
  have hne : toLowerJS c ≠ toLowerJS 'h' := by
    rw [ws_toLower_self h]
    intro he
    rw [show toLowerJS 'h' = 'h' from rfl] at he
    rw [he] at h
    exact absurd h (by decide)
  simp [matchMalformed, dropCI, hne]

theorem mm_length {s r : Str} (h : matchMalformed s = some r) : r.length < s.length := by
  obtain ⟨lit, c, mid, hs, _, _, _⟩ := mm_some_shape h
  rw [hs]
  simp
  omega

/-! ## Equations for `stripMalformed` and first properties -/

theorem stripFuel_nil : ∀ f, stripFuel f [] = [] := by
  intro f; cases f <;> rfl

theorem stripFuel_congr : ∀ (f : Nat) {g : Nat} {s : Str},
    s.length ≤ f → s.length ≤ g → stripFuel f s = stripFuel g s := by
  intro f
  induction f with
  | zero =>
    intro g s hf _
    have : s = [] := List.length_eq_zero.mp (Nat.le_zero.mp hf)
    simp [this, stripFuel_nil]
  | succ f' ih =>
    intro g s hf hg
    cases s with
    | nil => simp [stripFuel_nil]
    | cons c cs =>
      cases g with
      | zero => simp at hg
      | succ g' =>
        simp only [stripFuel]
        cases h : matchMalformed (c :: cs) with
        | some rest =>
          have hlt := mm_length h
          exact ih (by simp at hf hlt ⊢; omega) (by simp at hg hlt ⊢; omega)
        | none =>
          have : cs.length ≤ f' := by simpa using hf
          have : stripFuel f' cs = stripFuel g' cs :=
            ih (by simpa using hf) (by simpa using hg)
          rw [this]

theorem stripMalformed_cons_some {c : Char} {cs rest : Str}
    (h : matchMalformed (c :: cs) = some rest) :
    stripMalformed (c :: cs) = stripMalformed rest := by
  unfold stripMalformed
  have hlt := mm_length h
  simp only [List.length_cons, stripFuel, h]
  exact stripFuel_congr _ (by simp at hlt ⊢; omega) le_rfl

theorem stripMalformed_cons_none {c : Char} {cs : Str}
    (h : matchMalformed (c :: cs) = none) :
    stripMalformed (c :: cs) = c :: stripMalformed cs := by
  unfold stripMalformed
  simp only [List.length_cons, stripFuel, h]

theorem hasMal_cons (c : Char) (cs : Str) :
    hasMal (c :: cs) = ((matchMalformed (c :: cs)).isSome || hasMal cs) := rfl

theorem strip_of_hasMal_eq_false : ∀ {t : Str}, hasMal t = false → stripMalformed t = t := by
  intro t
  induction t with
  | nil => intro _; rfl
  | cons c cs ih =>
    intro h
    rw [hasMal_cons] at h
    simp only [Bool.or_eq_false_iff] at h
    have hm : matchMalformed (c :: cs) = none := Option.not_isSome_iff_eq_none.mp (by simp [h.1])
    rw [stripMalformed_cons_none hm, ih h.2]

theorem strip_first (t : Str) : stripMalformed t = t ∨
    ∃ a q, stripMalformed t = a ++ q ∧ a <+: t ∧
      (q = [] ∨ ∃ d q', q = d :: q' ∧ isWsJS d = true) := by
  induction t with
  | nil => left; rfl
  | cons c cs ih =>
    cases h : matchMalformed (c :: cs) with
    | some rest =>
      right
      refine ⟨[], stripMalformed rest, by simp [stripMalformed_cons_some h], List.nil_prefix, ?_⟩
      obtain ⟨_, _, _, _, _, _, hrest⟩ := mm_some_shape h
      rcases hrest with rfl | ⟨d, r', rfl, hd⟩
      · left; rfl
      · right
        exact ⟨d, stripMalformed r', stripMalformed_cons_none (mm_none_ws_head hd), hd⟩
    | none =>
      rcases ih with h1 | ⟨a, q, h1, h2, h3⟩
      · left; rw [stripMalformed_cons_none h, h1]
      · right
        exact ⟨c :: a, q, by rw [stripMalformed_cons_none h, h1]; rfl,
          List.cons_prefix_cons.mpr ⟨rfl, h2⟩, h3⟩

theorem mm_none_strip {c : Char} {cs : Str} (h : matchMalformed (c :: cs) = none) :
    matchMalformed (c :: stripMalformed cs) = none := by
  rcases strip_first cs with h1 | ⟨a, q, h1, h2, h3⟩
  · rw [h1]; exact h
  · rw [h1]
    by_contra hne
    have hsome : (matchMalformed (c :: (a ++ q))).isSome = true := by
      cases hh : matchMalformed (c :: (a ++ q)) with
      | none => exact absurd hh hne
      | some _ => simp
    obtain ⟨r, hr⟩ := Option.isSome_iff_exists.mp hsome
    obtain ⟨lit, c', mid, hs, hl, hc', _⟩ := mm_some_shape hr
    obtain ⟨e, he⟩ := h2
    have hs' : (c :: a) ++ q = (lit ++ [c']) ++ (mid ++ r) := by
      simpa [List.append_assoc] using hs
    rcases List.append_eq_append_iff.mp hs' with ⟨m, hm1, hm2⟩ | ⟨m, hm1, hm2⟩
    · -- `lit ++ [c']` extends `c :: a` by `m`
      cases m with
      | nil =>
        have hca : c :: a = lit ++ [c'] := by simpa using hm1.symm
        have : c :: cs = lit ++ c' :: e := by
          rw [← he, ← List.cons_append, hca]
          simp
        exact absurd (mm_isSome_of_shape lit c' e this hl hc') (by simp [h])
      | cons dm m' =>
        have hq : q = dm :: (m' ++ (mid ++ r)) := by simpa using hm2
        rcases h3 with rfl | ⟨d, q', hq', hd⟩
        · simp at hq
        · rw [hq'] at hq
          have hdq : d = dm := by
            have := (List.cons.injEq d q' dm (m' ++ (mid ++ r))).mp hq
            exact this.1
          have hmem : dm ∈ lit ++ [c'] := by
            rw [hm1]
            exact List.mem_append.mpr (Or.inr (by simp))
          rcases List.mem_append.mp hmem with hin | hin
          · have := litOK_nonws hl dm hin
            rw [← hdq] at this
            simp [hd] at this
          · have hdc : dm = c' := by simpa using hin
            rw [← hdc, ← hdq] at hc'
            simp [hd] at hc'
    · -- `lit ++ [c']` is a prefix of `c :: a`
      have : c :: cs = lit ++ c' :: (m ++ e) := by
        rw [← he, ← List.cons_append, hm1]
        simp [List.append_assoc]
      exact absurd (mm_isSome_of_shape lit c' (m ++ e) this hl hc') (by simp [h])

theorem hasMal_strip (t : Str) : hasMal (stripMalformed t) = false := by
  cases t with
  | nil => rfl
  | cons c cs =>
    cases h : matchMalformed (c :: cs) with
    | some rest =>
      rw [stripMalformed_cons_some h]
      exact hasMal_strip rest
    | none =>
      rw [stripMalformed_cons_none h, hasMal_cons]
      simp [hasMal_strip cs, mm_none_strip h]
termination_by t.length
decreasing_by
  all_goals first
    | (have hlt := mm_length h; simp at hlt ⊢; omega)
    | (simp only [List.length_cons]; omega)

theorem strip_idem (t : Str) : stripMalformed (stripMalformed t) = stripMalformed t :=
  strip_of_hasMal_eq_false (hasMal_strip t)

theorem strip_subset {t : Str} : ∀ x ∈ stripMalformed t, x ∈ t := by
  cases t with
  | nil => simp [stripMalformed, stripFuel]
  | cons c cs =>
    cases h : matchMalformed (c :: cs) with
    | some rest =>
      rw [stripMalformed_cons_some h]
      intro x hx
      have hxr : x ∈ rest := strip_subset x hx
      obtain ⟨lit, c', mid, hs, _, _, _⟩ := mm_some_shape h
      rw [hs]
      simp [hxr]
    | none =>
      rw [stripMalformed_cons_none h]
      intro x hx
      rcases List.mem_cons.mp hx with rfl | hx'
      · simp
      · exact List.mem_cons_of_mem _ (strip_subset x hx')
termination_by t.length
decreasing_by
  all_goals first
    | (have hlt := mm_length h; simp at hlt ⊢; omega)
    | (simp only [List.length_cons]; omega)

theorem mm_isSome_stop {d : Char} {x y : Str} (hd : isWsJS d = true)
    (h : (matchMalformed (x ++ d :: y)).isSome = true) :
    (matchMalformed x).isSome = true := by
  obtain ⟨r, hr⟩ := Option.isSome_iff_exists.mp h
  obtain ⟨lit, c', mid, hs, hl, hc', _⟩ := mm_some_shape hr
  have hs' : x ++ (d :: y) = (lit ++ [c']) ++ (mid ++ r) := by
    simpa [List.append_assoc] using hs
  rcases List.append_eq_append_iff.mp hs' with ⟨m, hm1, hm2⟩ | ⟨m, hm1, hm2⟩
  · cases m with
    | nil =>
      have hx : x = lit ++ [c'] := by simpa using hm1.symm
      exact mm_isSome_of_shape lit c' [] (by simp [hx]) hl hc'
    | cons dm m' =>
      have hq : d :: y = dm :: (m' ++ (mid ++ r)) := by simpa using hm2
      have hdq : d = dm := ((List.cons.injEq d y dm (m' ++ (mid ++ r))).mp hq).1
      have hmem : dm ∈ lit ++ [c'] := by
        rw [hm1]
        exact List.mem_append.mpr (Or.inr (by simp))
      rcases List.mem_append.mp hmem with hin | hin
      · have := litOK_nonws hl dm hin
        rw [← hdq] at this
        simp [hd] at this
      · have hdc : dm = c' := by simpa using hin
        rw [← hdc, ← hdq] at hc'
        simp [hd] at hc'
  · have hx : x = lit ++ c' :: m := by simpa using hm1
    exact mm_isSome_of_shape lit c' m hx hl hc'

theorem mm_isSome_ws_eq {d : Char} {x y : Str} (hd : isWsJS d = true) :
    (matchMalformed (x ++ d :: y)).isSome = (matchMalformed x).isSome := by
  cases h2 : (matchMalformed x).isSome with
  | true => exact mm_isSome_append h2
  | false =>
    cases h3 : (matchMalformed (x ++ d :: y)).isSome with
    | false => rfl
    | true => rw [← h2, mm_isSome_stop hd h3]

theorem hasMal_append_ws {d : Char} (hd : isWsJS d = true) :
    ∀ (x y : Str), hasMal (x ++ d :: y) = (hasMal x || hasMal y) := by
  intro x y
  induction x with
  | nil =>
    have h0 : matchMalformed (d :: y) = none := mm_none_ws_head hd
    show hasMal (d :: y) = (hasMal [] || hasMal y)
    rw [hasMal_cons, h0]
    rfl
  | cons c x' ih =>
    have he1 : ((c :: x') ++ d :: y) = c :: (x' ++ d :: y) := rfl
    rw [he1, hasMal_cons, hasMal_cons]
    have he : (matchMalformed (c :: (x' ++ d :: y))).isSome =
        (matchMalformed (c :: x')).isSome := by
      have he2 : c :: (x' ++ d :: y) = (c :: x') ++ d :: y := rfl
      rw [he2]
      exact mm_isSome_ws_eq hd
    rw [he, ih, Bool.or_assoc]

theorem joinNL_cons2 (a b : Str) (ls : List Str) :
    joinNL (a :: b :: ls) = a ++ '\n' :: joinNL (b :: ls) := rfl

theorem hasMal_join : ∀ ls : List Str, hasMal (joinNL ls) = ls.any (fun l => hasMal l) := by
  intro ls
  induction ls with
  | nil => rfl
  | cons a ls ih =>
    cases ls with
    | nil => simp [joinNL]
    | cons b ls' =>
      rw [joinNL_cons2, hasMal_append_ws (by decide), ih]
      simp

/-! ## Lemmas about `splitRN`, `splitNL` and `joinNL` -/

theorem splitRN_ne_nil (s : Str) : splitRN s ≠ [] := by
  rw [splitRN.eq_def]
  split
  · simp
  · simp
  · simp
  · split <;> simp

/-- The four-way case analysis matching `splitRN`'s own pattern structure. -/
theorem splitRN_cases (s : Str) :
    (s = [] ∧ splitRN s = [[]]) ∨
    (∃ rest, s = '\r' :: '\n' :: rest ∧ splitRN s = [] :: splitRN rest) ∨
    (∃ rest, s = '\n' :: rest ∧ splitRN s = [] :: splitRN rest) ∨
    (∃ c rest l' ls', s = c :: rest ∧ splitRN rest = l' :: ls' ∧
      splitRN s = (c :: l') :: ls') := by
  have h : splitRN s = splitRN s := rfl
  conv at h => rhs; rw [splitRN.eq_def]
  split at h
  · left; exact ⟨rfl, h⟩
  · right; left; exact ⟨_, rfl, h⟩
  · right; right; left; exact ⟨_, rfl, h⟩
  · right; right; right
    split at h
    · exact ⟨_, _, _, _, rfl, by assumption, h⟩
    · exact absurd (by assumption) (splitRN_ne_nil _)

theorem splitRN_shape : ∀ (s : Str) {l : Str} {ls : List Str}, splitRN s = l :: ls →
    ∃ t, s = l ++ t ∧ (t = [] ∨ t.head? = some '\n' ∨ t.head? = some '\r') := by
  suffices H : ∀ (n : Nat) (s : Str), s.length ≤ n → ∀ {l : Str} {ls : List Str},
      splitRN s = l :: ls →
      ∃ t, s = l ++ t ∧ (t = [] ∨ t.head? = some '\n' ∨ t.head? = some '\r') by
    intro s l ls h
    exact H s.length s le_rfl h
  intro n
  induction n with
  | zero =>
    intro s hs l ls h
    have hnil : s = [] := List.length_eq_zero.mp (Nat.le_zero.mp hs)
    subst hnil
    have : l = [] := by simpa using ((List.cons.injEq _ _ _ _).mp h.symm).1.symm
    exact ⟨[], by simp [this], Or.inl rfl⟩
  | succ n ih =>
    intro s hs l ls h
    rcases splitRN_cases s with ⟨rfl, he⟩ | ⟨rest, rfl, he⟩ | ⟨rest, rfl, he⟩ |
      ⟨c, rest, l', ls', rfl, hrec, he⟩
    · rw [he] at h
      have : l = [] := ((List.cons.injEq _ _ _ _).mp h).1.symm
      exact ⟨[], by simp [this], Or.inl rfl⟩
    · rw [he] at h
      have : l = [] := ((List.cons.injEq _ _ _ _).mp h).1.symm
      exact ⟨'\r' :: '\n' :: rest, by simp [this], Or.inr (Or.inr rfl)⟩
    · rw [he] at h
      have : l = [] := ((List.cons.injEq _ _ _ _).mp h).1.symm
      exact ⟨'\n' :: rest, by simp [this], Or.inr (Or.inl rfl)⟩
    · rw [he] at h
      have hl : l = c :: l' := ((List.cons.injEq _ _ _ _).mp h).1.symm
      obtain ⟨t, ht1, ht2⟩ := ih rest (by simp at hs; omega) hrec
      exact ⟨t, by simp [hl, ht1], ht2⟩

theorem splitRN_no_nl : ∀ (s : Str), ∀ l ∈ splitRN s, '\n' ∉ l := by
  suffices H : ∀ (n : Nat) (s : Str), s.length ≤ n → ∀ l ∈ splitRN s, '\n' ∉ l by
    intro s l hl
    exact H s.length s le_rfl l hl
  intro n
  induction n with
  | zero =>
    intro s hs l hl
    have hnil : s = [] := List.length_eq_zero.mp (Nat.le_zero.mp hs)
    subst hnil
    have e0 : splitRN ([] : Str) = [[]] := rfl
    rw [e0] at hl
    have : l = [] := by simpa using hl
    simp [this]
  | succ n ih =>
    intro s hs l hl
    rcases splitRN_cases s with ⟨rfl, he⟩ | ⟨rest, rfl, he⟩ | ⟨rest, rfl, he⟩ |
      ⟨c, rest, l', ls', rfl, hrec, he⟩
    · rw [he] at hl
      have : l = [] := by simpa using hl
      simp [this]
    · rw [he] at hl
      rcases List.mem_cons.mp hl with rfl | hl'
      · simp
      · exact ih rest (by simp at hs; omega) l hl'
    · rw [he] at hl
      rcases List.mem_cons.mp hl with rfl | hl'
      · simp
      · exact ih rest (by simp at hs; omega) l hl'
    · rw [he] at hl
      rcases List.mem_cons.mp hl with rfl | hl'
      · intro hmem
        rcases List.mem_cons.mp hmem with hc | hmem'
        · subst hc
          have h2 : splitRN ('\n' :: rest) = [] :: splitRN rest := rfl
          rw [h2] at he
          have := ((List.cons.injEq _ _ _ _).mp he).1
          simp at this
        · exact ih rest (by simp at hs; omega) l' (by rw [hrec]; simp) hmem'
      · exact ih rest (by simp at hs; omega) l (by rw [hrec]; simp [hl'])

theorem splitRN_chars : ∀ (s : Str), ∀ l ∈ splitRN s, ∀ x ∈ l, x ∈ s := by
  suffices H : ∀ (n : Nat) (s : Str), s.length ≤ n → ∀ l ∈ splitRN s, ∀ x ∈ l, x ∈ s by
    intro s l hl x hx
    exact H s.length s le_rfl l hl x hx
  intro n
  induction n with
  | zero =>
    intro s hs l hl x hx
    have hnil : s = [] := List.length_eq_zero.mp (Nat.le_zero.mp hs)
    subst hnil
    have e0 : splitRN ([] : Str) = [[]] := rfl
    rw [e0] at hl
    have : l = [] := by simpa using hl
    rw [this] at hx
    simp at hx
  | succ n ih =>
    intro s hs l hl x hx
    rcases splitRN_cases s with ⟨rfl, he⟩ | ⟨rest, rfl, he⟩ | ⟨rest, rfl, he⟩ |
      ⟨c, rest, l', ls', rfl, hrec, he⟩
    · rw [he] at hl
      have : l = [] := by simpa using hl
      rw [this] at hx
      simp at hx
    · rw [he] at hl
      rcases List.mem_cons.mp hl with rfl | hl'
      · simp at hx
      · have := ih rest (by simp at hs; omega) l hl' x hx
        simp [this]
    · rw [he] at hl
      rcases List.mem_cons.mp hl with rfl | hl'
      · simp at hx
      · have := ih rest (by simp at hs; omega) l hl' x hx
        simp [this]
    · rw [he] at hl
      rcases List.mem_cons.mp hl with rfl | hl'
      · rcases List.mem_cons.mp hx with rfl | hx'
        · simp
        · have := ih rest (by simp at hs; omega) l' (by rw [hrec]; simp) x hx'
          simp [this]
      · have := ih rest (by simp at hs; omega) l (by rw [hrec]; simp [hl']) x hx
        simp [this]

theorem hasMal_lines : ∀ (s : Str), hasMal s = false → ∀ l ∈ splitRN s, hasMal l = false := by
  suffices H : ∀ (n : Nat) (s : Str), s.length ≤ n → hasMal s = false →
      ∀ l ∈ splitRN s, hasMal l = false by
    intro s h l hl
    exact H s.length s le_rfl h l hl
  intro n
  induction n with
  | zero =>
    intro s hs _ l hl
    have hnil : s = [] := List.length_eq_zero.mp (Nat.le_zero.mp hs)
    subst hnil
    have e0 : splitRN ([] : Str) = [[]] := rfl
    rw [e0] at hl
    have : l = [] := by simpa using hl
    rw [this]
    rfl
  | succ n ih =>
    intro s hs h l hl
    rcases splitRN_cases s with ⟨rfl, he⟩ | ⟨rest, rfl, he⟩ | ⟨rest, rfl, he⟩ |
      ⟨c, rest, l', ls', rfl, hrec, he⟩
    · rw [he] at hl
      have : l = [] := by simpa using hl
      rw [this]
      rfl
    · rw [he] at hl
      have hrest : hasMal rest = false := by
        rw [hasMal_cons] at h
        simp only [Bool.or_eq_false_iff] at h
        have h2 := h.2
        rw [hasMal_cons] at h2
        simp only [Bool.or_eq_false_iff] at h2
        exact h2.2
      rcases List.mem_cons.mp hl with rfl | hl'
      · rfl
      · exact ih rest (by simp at hs; omega) hrest l hl'
    · rw [he] at hl
      have hrest : hasMal rest = false := by
        rw [hasMal_cons] at h
        simp only [Bool.or_eq_false_iff] at h
        exact h.2
      rcases List.mem_cons.mp hl with rfl | hl'
      · rfl
      · exact ih rest (by simp at hs; omega) hrest l hl'
    · rw [he] at hl
      rw [hasMal_cons] at h
      simp only [Bool.or_eq_false_iff] at h
      have hrest := h.2
      rcases List.mem_cons.mp hl with rfl | hl'
      · rw [hasMal_cons]
        simp only [Bool.or_eq_false_iff]
        refine ⟨?_, ih rest (by simp at hs; omega) hrest l' (by rw [hrec]; simp)⟩
        cases hmm : (matchMalformed (c :: l')).isSome with
        | false => rfl
        | true =>
          obtain ⟨t, ht1, _⟩ := splitRN_shape rest hrec
          have hext : (matchMalformed ((c :: l') ++ t)).isSome = true := mm_isSome_append hmm
          rw [show (c :: l') ++ t = c :: rest by simp [ht1]] at hext
          rw [hext] at h
          simp at h
      · exact ih rest (by simp at hs; omega) hrest l (by rw [hrec]; simp [hl'])

theorem splitNL_ne_nil (s : Str) : splitNL s ≠ [] := by
  rw [splitNL.eq_def]
  split
  · simp
  · simp
  · split <;> simp

/-- Three-way case analysis matching `splitNL`'s pattern structure. -/
theorem splitNL_cases (s : Str) :
    (s = [] ∧ splitNL s = [[]]) ∨
    (∃ rest, s = '\n' :: rest ∧ splitNL s = [] :: splitNL rest) ∨
    (∃ c rest l' ls', s = c :: rest ∧ c ≠ '\n' ∧ splitNL rest = l' :: ls' ∧
      splitNL s = (c :: l') :: ls') := by
  have h : splitNL s = splitNL s := rfl
  conv at h => rhs; rw [splitNL.eq_def]
  split at h
  · left; exact ⟨rfl, h⟩
  · right; left; exact ⟨_, rfl, h⟩
  · right; right
    split at h
    · rename_i hne _ _ _ _
      refine ⟨_, _, _, _, rfl, ?_, by assumption, h⟩
      intro hc
      exact hne (by rw [hc])
    · exact absurd (by assumption) (splitNL_ne_nil _)

theorem splitNL_no_nl_id {l : Str} (h : '\n' ∉ l) : splitNL l = [l] := by
  induction l with
  | nil => rfl
  | cons c rest ih =>
    have hc : c ≠ '\n' := fun hc => h (by simp [hc])
    have hrest : '\n' ∉ rest := fun hm => h (List.mem_cons_of_mem _ hm)
    rcases splitNL_cases (c :: rest) with ⟨he, _⟩ | ⟨rest', he, _⟩ |
      ⟨c', rest', l', ls', he, _, hrec, hval⟩
    · simp at he
    · exact absurd (((List.cons.injEq _ _ _ _).mp he).1) hc
    · have hc2 : c' = c := (((List.cons.injEq _ _ _ _).mp he).1).symm
      have hr' : rest' = rest := (((List.cons.injEq _ _ _ _).mp he).2).symm
      rw [hr'] at hrec
      rw [ih hrest] at hrec
      have hl : rest = l' := ((List.cons.injEq _ _ _ _).mp hrec).1
      have hls : ([] : List Str) = ls' := ((List.cons.injEq _ _ _ _).mp hrec).2
      rw [hval, ← hl, ← hls, hc2]

theorem splitNL_append_nl {l : Str} (h : '\n' ∉ l) (r : Str) :
    splitNL (l ++ '\n' :: r) = l :: splitNL r := by
  induction l with
  | nil => rfl
  | cons c rest ih =>
    have hc : c ≠ '\n' := fun hc => h (by simp [hc])
    have hrest : '\n' ∉ rest := fun hm => h (List.mem_cons_of_mem _ hm)
    rcases splitNL_cases (c :: (rest ++ '\n' :: r)) with ⟨he, _⟩ | ⟨rest', he, _⟩ |
      ⟨c', rest', l', ls', he, _, hrec, hval⟩
    · simp at he
    · exact absurd (((List.cons.injEq _ _ _ _).mp he).1) hc
    · have hc2 : c' = c := (((List.cons.injEq _ _ _ _).mp he).1).symm
      have hr' : rest' = rest ++ '\n' :: r := (((List.cons.injEq _ _ _ _).mp he).2).symm
      rw [hr'] at hrec
      rw [ih hrest] at hrec
      have hl : rest = l' := ((List.cons.injEq _ _ _ _).mp hrec).1
      have hls : splitNL r = ls' := ((List.cons.injEq _ _ _ _).mp hrec).2
      show splitNL (c :: (rest ++ '\n' :: r)) = (c :: rest) :: splitNL r
      rw [hval, ← hl, ← hls, hc2]

theorem splitNL_joinNL : ∀ {ls : List Str}, (∀ l ∈ ls, '\n' ∉ l) → ls ≠ [] →
    splitNL (joinNL ls) = ls := by
  intro ls
  induction ls with
  | nil => intro _ h; exact absurd rfl h
  | cons a ls ih =>
    intro h _
    cases ls with
    | nil => exact splitNL_no_nl_id (h a (by simp))
    | cons b ls' =>
      rw [joinNL_cons2, splitNL_append_nl (h a (by simp))]
      rw [ih (fun l hl => h l (List.mem_cons_of_mem _ hl)) (by simp)]

theorem joinNL_mem {l : Str} : ∀ {ls : List Str}, l ∈ ls →
    ∃ A B, joinNL ls = A ++ (l ++ B) ∧ (B = [] ∨ B.head? = some '\n') := by
  intro ls
  induction ls with
  | nil => intro h; simp at h
  | cons a ls ih =>
    intro h
    rcases List.mem_cons.mp h with rfl | hl'
    · cases ls with
      | nil => exact ⟨[], [], by simp [joinNL], Or.inl rfl⟩
      | cons b ls' =>
        exact ⟨[], '\n' :: joinNL (b :: ls'), by rw [joinNL_cons2]; simp, Or.inr rfl⟩
    · cases ls with
      | nil => simp at hl'
      | cons b ls' =>
        obtain ⟨A, B, hAB, hB⟩ := ih hl'
        exact ⟨a ++ '\n' :: A, B, by rw [joinNL_cons2, hAB]; simp, hB⟩

theorem joinNL_chars {x : Char} : ∀ {ls : List Str}, x ∈ joinNL ls →
    (∃ l ∈ ls, x ∈ l) ∨ x = '\n' := by
  intro ls
  induction ls with
  | nil => intro h; simp [joinNL] at h
  | cons a ls ih =>
    intro h
    cases ls with
    | nil => exact Or.inl ⟨a, by simp, by simpa [joinNL] using h⟩
    | cons b ls' =>
      rw [joinNL_cons2] at h
      rcases List.mem_append.mp h with ha | hrest
      · exact Or.inl ⟨a, by simp, ha⟩
      · rcases List.mem_cons.mp hrest with rfl | hj
        · exact Or.inr rfl
        · rcases ih hj with ⟨l, hl, hx⟩ | hnl
          · exact Or.inl ⟨l, List.mem_cons_of_mem _ hl, hx⟩
          · exact Or.inr hnl

theorem trimJS_decomp (l : Str) : ∃ a b, l = a ++ (trimJS l ++ b) := by
  refine ⟨l.takeWhile isWsJS, ((l.dropWhile isWsJS).reverse.takeWhile isWsJS).reverse, ?_⟩
  unfold trimJS
  conv_lhs => rw [← @List.takeWhile_append_dropWhile _ isWsJS l]
  congr 1
  conv_lhs => rw [← List.reverse_reverse (l.dropWhile isWsJS)]
  conv_lhs =>
    rw [← @List.takeWhile_append_dropWhile _ isWsJS ((l.dropWhile isWsJS).reverse)]
  rw [List.reverse_append]

/-! ## Lemmas about `containsCI` and the marker test `hasSTP` -/

theorem containsCI_cons (pat : Str) (c : Char) (cs : Str) :
    containsCI pat (c :: cs) = ((dropCI pat (c :: cs)).isSome || containsCI pat cs) := rfl

theorem contains_of_sw {pat s : Str} (h : (dropCI pat s).isSome = true) :
    containsCI pat s = true := by
  cases s with
  | nil => exact h
  | cons c cs => rw [containsCI_cons, h]; rfl

theorem contains_append_right {pat v : Str} (u : Str) (h : containsCI pat v = true) :
    containsCI pat (u ++ v) = true := by
  induction u with
  | nil => exact h
  | cons c u' ih =>
    rw [List.cons_append, containsCI_cons, ih]
    simp

theorem contains_of_decomp {pat : Str} (u pre w : Str)
    (h : pre.map toLowerJS = pat.map toLowerJS) :
    containsCI pat (u ++ (pre ++ w)) = true :=
  contains_append_right u (contains_of_sw (by rw [dropCI_of_map h]; rfl))

theorem sw_stop {pat : Str} {d : Char} (hd : ∀ p ∈ pat, toLowerJS p ≠ toLowerJS d) :
    ∀ {x y : Str}, (dropCI pat (x ++ d :: y)).isSome = true → (dropCI pat x).isSome = true := by
  induction pat with
  | nil => intro x y _; rfl
  | cons p ps ih =>
    intro x y h
    cases x with
    | nil =>
      rw [List.nil_append] at h
      by_cases hc : toLowerJS d = toLowerJS p
      · exact absurd hc.symm (hd p (by simp))
      · simp [dropCI, hc] at h
    | cons a x' =>
      rw [List.cons_append] at h
      by_cases hc : toLowerJS a = toLowerJS p
      · simp only [dropCI, if_pos hc] at h ⊢
        exact ih (fun q hq => hd q (List.mem_cons_of_mem _ hq)) h
      · simp [dropCI, hc] at h

theorem contains_to_line {pat : Str} (hne : pat ≠ [])
    (hpat : ∀ p ∈ pat, toLowerJS p ≠ '\n' ∧ toLowerJS p ≠ '\r') :
    ∀ (s : Str), containsCI pat s = true → ∃ l ∈ splitRN s, containsCI pat l = true := by
  suffices H : ∀ (n : Nat) (s : Str), s.length ≤ n → containsCI pat s = true →
      ∃ l ∈ splitRN s, containsCI pat l = true by
    intro s h
    exact H s.length s le_rfl h
  have hsw0 : ∀ y : Str, (dropCI pat ('\n' :: y)).isSome = false := by
    intro y
    cases pat with
    | nil => exact absurd rfl hne
    | cons p ps =>
      have : ¬ toLowerJS '\n' = toLowerJS p := by
        intro hcc
        exact (hpat p (by simp)).1 (by rw [← hcc]; decide)
      simp [dropCI, this]
  have hsw1 : ∀ y : Str, (dropCI pat ('\r' :: y)).isSome = false := by
    intro y
    cases pat with
    | nil => exact absurd rfl hne
    | cons p ps =>
      have : ¬ toLowerJS '\r' = toLowerJS p := by
        intro hcc
        exact (hpat p (by simp)).2 (by rw [← hcc]; decide)
      simp [dropCI, this]
  intro n
  induction n with
  | zero =>
    intro s hs h
    have hnil : s = [] := List.length_eq_zero.mp (Nat.le_zero.mp hs)
    subst hnil
    exact ⟨[], by rw [show splitRN ([] : Str) = [[]] from rfl]; simp, h⟩
  | succ n ih =>
    intro s hs h
    rcases splitRN_cases s with ⟨rfl, he⟩ | ⟨rest, rfl, he⟩ | ⟨rest, rfl, he⟩ |
      ⟨c, rest, l', ls', rfl, hrec, he⟩
    · exact ⟨[], by rw [he]; simp, h⟩
    · rw [containsCI_cons, hsw1, containsCI_cons, hsw0] at h
      simp only [Bool.false_or] at h
      obtain ⟨l, hl, hcl⟩ := ih rest (by simp at hs; omega) h
      exact ⟨l, by rw [he]; simp [hl], hcl⟩
    · rw [containsCI_cons, hsw0] at h
      simp only [Bool.false_or] at h
      obtain ⟨l, hl, hcl⟩ := ih rest (by simp at hs; omega) h
      exact ⟨l, by rw [he]; simp [hl], hcl⟩
    · rw [containsCI_cons] at h
      rcases Bool.or_eq_true_iff.mp h with hswc | hcr
      · -- the match at position 0 stays within the first line
        obtain ⟨t, ht1, ht2⟩ := splitRN_shape rest hrec
        have hsw' : (dropCI pat (c :: l')).isSome = true := by
          rcases ht2 with rfl | hh | hh
          · simpa [ht1] using hswc
          · cases t with
            | nil => simp at hh
            | cons d t' =>
              have hd : d = '\n' := by simpa using hh
              subst hd
              have : c :: rest = (c :: l') ++ '\n' :: t' := by simp [ht1]
              rw [this] at hswc
              exact sw_stop (fun p hp => by
                rw [show toLowerJS '\n' = '\n' from rfl]
                exact (hpat p hp).1) hswc
          · cases t with
            | nil => simp at hh
            | cons d t' =>
              have hd : d = '\r' := by simpa using hh
              subst hd
              have : c :: rest = (c :: l') ++ '\r' :: t' := by simp [ht1]
              rw [this] at hswc
              exact sw_stop (fun p hp => by
                rw [show toLowerJS '\r' = '\r' from rfl]
                exact (hpat p hp).2) hswc
        exact ⟨c :: l', by rw [he]; simp, contains_of_sw hsw'⟩
      · obtain ⟨l, hl, hcl⟩ := ih rest (by simp at hs; omega) hcr
        rcases List.mem_cons.mp (by rw [hrec] at hl; exact hl) with rfl | hl'
        · exact ⟨c :: l, by rw [he]; simp, by rw [containsCI_cons, hcl]; simp⟩
        · exact ⟨l, by rw [he]; simp [hl'], hcl⟩

theorem checkTail_some {pat s : Str} (h : checkTail pat s = true) :
    ∃ r, dropCI pat s = some r ∧ boundaryAfter r = true := by
  unfold checkTail at h
  cases hd : dropCI pat s with
  | none => rw [hd] at h; simp at h
  | some r => rw [hd] at h; exact ⟨r, rfl, h⟩

/-- If `pat` has `splitthepicks` (case-insensitively) as its suffix from
position `k`, any `dropCI pat` match witnesses a `splitthepicks` occurrence. -/
theorem contains_stp_of_dropCI {pat : Str} (k : Nat)
    (hk : (pat.drop k).map toLowerJS = stpWord.map toLowerJS)
    {s r : Str} (h : dropCI pat s = some r) : containsCI stpWord s = true := by
  obtain ⟨pre, rfl, hmap⟩ := dropCI_some h
  have hpre : (pre.drop k).map toLowerJS = stpWord.map toLowerJS := by
    rw [List.map_drop, hmap, ← List.map_drop, hk]
  have hsplit : pre ++ r = pre.take k ++ ((pre.drop k) ++ r) := by
    rw [← List.append_assoc, List.take_append_drop]
  rw [hsplit]
  exact contains_of_decomp _ _ _ hpre

theorem hasSTP_imp_contains : ∀ (s : Str) (prev : Option Char),
    hasSTPAux prev s = true → containsCI stpWord s = true := by
  intro s
  induction s with
  | nil => intro prev h; exact absurd h (by simp [hasSTPAux])
  | cons c cs ih =>
    intro prev h
    rw [show hasSTPAux prev (c :: cs) = (altAt prev (c :: cs) || hasSTPAux (some c) cs)
      from rfl] at h
    rcases Bool.or_eq_true_iff.mp h with halt | hrec
    · unfold altAt at halt
      rcases Bool.or_eq_true_iff.mp halt with halt | h4
      rcases Bool.or_eq_true_iff.mp halt with halt | h3
      rcases Bool.or_eq_true_iff.mp halt with h1 | h2
      · obtain ⟨r, hd, _⟩ := checkTail_some h1
        exact contains_stp_of_dropCI 1 (by decide) hd
      · obtain ⟨r, hd, _⟩ := checkTail_some h2
        exact contains_stp_of_dropCI 5 (by decide) hd
      · -- the `https?://t.me/splitthepicks` alternative
        cases hh : dropCI ['h', 't', 't', 'p'] (c :: cs) with
        | none => simp [alt3At, hh] at h3
        | some s1 =>
          obtain ⟨pre4, he4, _⟩ := dropCI_some hh
          cases s1 with
          | nil => simp [alt3At, hh] at h3
          | cons a cs2 =>
            simp only [alt3At, hh] at h3
            by_cases hcase : toLowerJS a = 's'
            · rw [if_pos hcase] at h3
              obtain ⟨r, hd, _⟩ := checkTail_some h3
              have hc2 : containsCI stpWord cs2 = true :=
                contains_stp_of_dropCI 8 (by decide) hd
              have : containsCI stpWord (a :: cs2) = true := by
                rw [containsCI_cons, hc2]; simp
              rw [he4]
              exact contains_append_right pre4 this
            · rw [if_neg hcase] at h3
              obtain ⟨r, hd, _⟩ := checkTail_some h3
              have : containsCI stpWord (a :: cs2) = true :=
                contains_stp_of_dropCI 8 (by decide) hd
              rw [he4]
              exact contains_append_right pre4 this
      · rcases Bool.and_eq_true_iff.mp h4 with ⟨_, hck⟩
        obtain ⟨r, hd, _⟩ := checkTail_some hck
        exact contains_stp_of_dropCI 0 (by decide) hd
    · rw [containsCI_cons, ih (some c) hrec]
      simp

/-- Marker implies a marker-bearing line: the regex literal has no line
terminators, so the occurrence lies inside a single `splitRN` line. -/
theorem hasSTP_line {s : Str} (h : hasSTP s = true) :
    ∃ l ∈ splitRN s, lineHasSTP l = true := by
  have hc := hasSTP_imp_contains s none h
  obtain ⟨l, hl, hcl⟩ := contains_to_line (by decide) (by decide) s hc
  exact ⟨l, hl, by unfold lineHasSTP; rw [hcl]; simp⟩

theorem replaced_true {s : Str} (h : hasSTP s = true) :
    (splitRN s).any lineMatches = true := by
  obtain ⟨l, hl, hstp⟩ := hasSTP_line h
  refine List.any_eq_true.mpr ⟨l, hl, ?_⟩
  unfold lineMatches
  rw [hstp]
  simp

/-- A footer occurrence followed by nothing or a newline makes the marker
test succeed (used to show the rewritten output still carries the marker). -/
theorem hasSTPAux_append_alt2 {y : Str} (hy : checkTail tmeStpPat y = true) :
    ∀ (x : Str) (p : Option Char), hasSTPAux p (x ++ y) = true := by
  intro x
  induction x with
  | nil =>
    intro p
    cases y with
    | nil => exact absurd hy (by decide)
    | cons c cs =>
      rw [List.nil_append,
        show hasSTPAux p (c :: cs) = (altAt p (c :: cs) || hasSTPAux (some c) cs) from rfl]
      unfold altAt
      rw [hy]
      simp
  | cons a x' ih =>
    intro p
    rw [List.cons_append,
      show hasSTPAux p (a :: (x' ++ y)) = (altAt p (a :: (x' ++ y)) || hasSTPAux (some a) (x' ++ y))
        from rfl, ih (some a)]
    simp

theorem hasSTP_footer_decomp {A B : Str} (hB : B = [] ∨ B.head? = some '\n') :
    hasSTP (A ++ (footerP0 ++ B)) = true := by
  have hfoot : footerP0 = ("DM \u00F0\u0178\u2018\u2030 <@1374514852701143091> \u00E2\u20AC\u00A2 https://".data) ++
      ("t.me/splitthepicks".data) := by decide
  have hbd : boundaryAfter B = true := by
    rcases hB with rfl | hh
    · rfl
    · cases B with
      | nil => simp at hh
      | cons b B' =>
        have : b = '\n' := by simpa using hh
        rw [this]
        rfl
  have hck : checkTail tmeStpPat (("t.me/splitthepicks".data) ++ B) = true := by
    unfold checkTail
    rw [dropCI_of_map (by decide) B]
    exact hbd
  have := hasSTPAux_append_alt2 hck
    (A ++ ("DM \u00F0\u0178\u2018\u2030 <@1374514852701143091> \u00E2\u20AC\u00A2 https://".data)) none
  unfold hasSTP
  rw [hfoot]
  rw [show A ++ (("DM \u00F0\u0178\u2018\u2030 <@1374514852701143091> \u00E2\u20AC\u00A2 https://".data ++ "t.me/splitthepicks".data) ++ B) =
    (A ++ "DM \u00F0\u0178\u2018\u2030 <@1374514852701143091> \u00E2\u20AC\u00A2 https://".data) ++ ("t.me/splitthepicks".data ++ B) by
      simp [List.append_assoc]]
  exact this

/-! ## Lemmas about the footer, `dedupeGo` and the rewritten lines -/

theorem trim_footer : trimJS footerP0 = footerP0 := by decide

theorem isFooterLine_footer : isFooterLine footerP0 = true := by
  unfold isFooterLine
  simp

theorem lineMatches_footer : lineMatches footerP0 = true := by decide

theorem footer_no_nl : '\n' ∉ footerP0 := by decide

theorem footer_no_cr : '\r' ∉ footerP0 := by decide

theorem hasMal_footer : hasMal footerP0 = false := by decide

/-- Any line whose trim equals the footer's trim contains the marker word and
hence matches the replacement test. -/
theorem trimEq_lineMatches {l : Str} (h : trimJS l = trimJS footerP0) :
    lineMatches l = true := by
  obtain ⟨a, b, hab⟩ := trimJS_decomp l
  rw [h, trim_footer] at hab
  have hfoot : footerP0 =
      ("DM \u00F0\u0178\u2018\u2030 <@1374514852701143091> \u00E2\u20AC\u00A2 https://t.me/".data) ++ stpWord := by
    decide
  have hl : l = (a ++ ("DM \u00F0\u0178\u2018\u2030 <@1374514852701143091> \u00E2\u20AC\u00A2 https://t.me/".data)) ++
      (stpWord ++ b) := by
    rw [hab, hfoot]
    simp [List.append_assoc]
  have hcont : containsCI stpWord l = true := by
    rw [hl]
    exact contains_of_decomp _ _ _ rfl
  unfold lineMatches lineHasSTP
  rw [hcont]
  simp

theorem dedupeGo_subset : ∀ (ls : List Str) (b : Bool) (l : Str),
    l ∈ dedupeGo ls b → l ∈ ls := by
  intro ls
  induction ls with
  | nil => intro b l h; simp [dedupeGo] at h
  | cons a ls ih =>
    intro b l h
    unfold dedupeGo at h
    by_cases hf : trimJS a = trimJS footerP0
    · rw [if_pos hf] at h
      cases b with
      | true => exact List.mem_cons_of_mem _ (ih true l (by simpa using h))
      | false =>
        rcases List.mem_cons.mp (by simpa using h) with rfl | h'
        · simp
        · exact List.mem_cons_of_mem _ (ih true l h')
    · rw [if_neg hf] at h
      rcases List.mem_cons.mp h with rfl | h'
      · simp
      · exact List.mem_cons_of_mem _ (ih b l h')

theorem dedupeGo_true : ∀ ls : List Str,
    dedupeGo ls true = ls.filter (fun l => !isFooterLine l) := by
  intro ls
  induction ls with
  | nil => rfl
  | cons a ls ih =>
    unfold dedupeGo
    by_cases hf : trimJS a = trimJS footerP0
    · rw [if_pos hf]
      have : isFooterLine a = true := by unfold isFooterLine; simp [hf]
      simp [List.filter, this, ih]
    · rw [if_neg hf]
      have : isFooterLine a = false := by unfold isFooterLine; simp [hf]
      simp [List.filter, this, ih]

theorem countP_dedupeGo_true (ls : List Str) :
    (dedupeGo ls true).countP isFooterLine = 0 := by
  rw [dedupeGo_true, List.countP_eq_zero]
  intro l hl
  have := List.of_mem_filter hl
  simp at this
  simp [this]

theorem countP_dedupeGo_false : ∀ ls : List Str, (∃ l ∈ ls, isFooterLine l = true) →
    (dedupeGo ls false).countP isFooterLine = 1 := by
  intro ls
  induction ls with
  | nil => intro h; simp at h
  | cons a ls ih =>
    intro h
    unfold dedupeGo
    by_cases hf : trimJS a = trimJS footerP0
    · rw [if_pos hf, if_neg Bool.false_ne_true]
      have ha : isFooterLine a = true := by unfold isFooterLine; simp [hf]
      rw [List.countP_cons_of_pos _ _ (by simpa using ha), countP_dedupeGo_true]
    · rw [if_neg hf]
      have ha : isFooterLine a = false := by unfold isFooterLine; simp [hf]
      obtain ⟨l, hl, hfl⟩ := h
      rcases List.mem_cons.mp hl with rfl | hl'
      · rw [ha] at hfl; simp at hfl
      · rw [List.countP_cons_of_neg _ _ (by simp [ha])]
        exact ih ⟨l, hl', hfl⟩

theorem dedupeGo_false_id : ∀ ls : List Str, ls.countP isFooterLine ≤ 1 →
    dedupeGo ls false = ls := by
  have hfilter : ∀ ls : List Str, ls.countP isFooterLine = 0 →
      dedupeGo ls true = ls := by
    intro ls h
    rw [dedupeGo_true]
    rw [List.countP_eq_zero] at h
    apply List.filter_eq_self.mpr
    intro l hl
    simp [h l hl]
  intro ls
  induction ls with
  | nil => intro _; rfl
  | cons a ls ih =>
    intro h
    unfold dedupeGo
    by_cases hf : trimJS a = trimJS footerP0
    · rw [if_pos hf, if_neg Bool.false_ne_true]
      have ha : isFooterLine a = true := by unfold isFooterLine; simp [hf]
      have h0 : ls.countP isFooterLine = 0 := by
        rw [List.countP_cons_of_pos _ _ (by simpa using ha)] at h
        omega
      rw [hfilter ls h0]
    · rw [if_neg hf]
      have ha : isFooterLine a = false := by unfold isFooterLine; simp [hf]
      rw [List.countP_cons_of_neg _ _ (by simp [ha])] at h
      rw [ih h]

theorem dedupeGo_false_ne_nil {ls : List Str} (h : ls ≠ []) : dedupeGo ls false ≠ [] := by
  cases ls with
  | nil => exact absurd rfl h
  | cons a ls =>
    unfold dedupeGo
    by_cases hf : trimJS a = trimJS footerP0
    · rw [if_pos hf, if_neg Bool.false_ne_true]; simp
    · rw [if_neg hf]; simp

theorem footer_mem_dedupeGo {ls : List Str}
    (hex : ∃ l ∈ ls, isFooterLine l = true)
    (hall : ∀ l ∈ ls, isFooterLine l = true → l = footerP0) :
    footerP0 ∈ dedupeGo ls false := by
  have h1 := countP_dedupeGo_false ls hex
  have h2 : 0 < (dedupeGo ls false).countP isFooterLine := by omega
  obtain ⟨x, hx, hfx⟩ := List.countP_pos.mp h2
  have := hall x (dedupeGo_subset ls false x hx) hfx
  rw [← this]
  exact hx

/-! ## The rewritten output `rewriteSTP` -/

theorem mem_map_lineF {s : Str} {l : Str} (h : l ∈ (splitRN s).map lineF) :
    l = footerP0 ∨ (l ∈ splitRN s ∧ lineMatches l = false) := by
  obtain ⟨l', hl', rfl⟩ := List.mem_map.mp h
  unfold lineF
  by_cases hm : lineMatches l' = true
  · rw [if_pos hm]; exact Or.inl rfl
  · rw [if_neg hm]
    exact Or.inr ⟨hl', by simpa using hm⟩

theorem map_lineF_no_nl {s : Str} : ∀ l ∈ (splitRN s).map lineF, '\n' ∉ l := by
  intro l hl
  rcases mem_map_lineF hl with rfl | ⟨hl', _⟩
  · exact footer_no_nl
  · exact splitRN_no_nl s l hl'

theorem map_lineF_footerEq {s : Str} :
    ∀ l ∈ (splitRN s).map lineF, isFooterLine l = true → l = footerP0 := by
  intro l hl hf
  rcases mem_map_lineF hl with rfl | ⟨_, hnm⟩
  · rfl
  · unfold isFooterLine at hf
    simp at hf
    rw [trimEq_lineMatches hf] at hnm
    simp at hnm

theorem map_lineF_exists_footer {s : Str} (h : hasSTP s = true) :
    ∃ l ∈ (splitRN s).map lineF, isFooterLine l = true := by
  obtain ⟨l', hl', hstp⟩ := hasSTP_line h
  refine ⟨lineF l', List.mem_map.mpr ⟨l', hl', rfl⟩, ?_⟩
  unfold lineF lineMatches
  rw [hstp]
  simp [isFooterLine_footer]

theorem map_ne_nil_of_ne_nil {α β : Type} {f : α → β} {l : List α} (h : l ≠ []) :
    l.map f ≠ [] := by
  cases l with
  | nil => exact absurd rfl h
  | cons a l => simp

theorem rewriteSTP_eq {s : Str} (h : hasSTP s = true) :
    rewriteSTP s = joinNL (dedupeGo ((splitRN s).map lineF) false) := by
  unfold rewriteSTP
  dsimp only
  rw [replaced_true h]
  simp only [if_true]
  rw [splitNL_joinNL map_lineF_no_nl (map_ne_nil_of_ne_nil (splitRN_ne_nil s))]

theorem splitNL_rewriteSTP {s : Str} (h : hasSTP s = true) :
    splitNL (rewriteSTP s) = dedupeGo ((splitRN s).map lineF) false := by
  rw [rewriteSTP_eq h]
  refine splitNL_joinNL ?_ (dedupeGo_false_ne_nil (map_ne_nil_of_ne_nil (splitRN_ne_nil s)))
  intro l hl
  exact map_lineF_no_nl l (dedupeGo_subset _ _ _ hl)

theorem footerLineCount_rewriteSTP {s : Str} (h : hasSTP s = true) :
    footerLineCount (rewriteSTP s) = 1 := by
  unfold footerLineCount
  rw [splitNL_rewriteSTP h]
  exact countP_dedupeGo_false _ (map_lineF_exists_footer h)

/-! ## Idempotence machinery: carriage-return-free strings -/

theorem splitRN_eq_splitNL : ∀ {s : Str}, '\r' ∉ s → splitRN s = splitNL s := by
  suffices H : ∀ (n : Nat) (s : Str), s.length ≤ n → '\r' ∉ s → splitRN s = splitNL s by
    intro s h
    exact H s.length s le_rfl h
  intro n
  induction n with
  | zero =>
    intro s hs _
    have hnil : s = [] := List.length_eq_zero.mp (Nat.le_zero.mp hs)
    subst hnil
    rfl
  | succ n ih =>
    intro s hs hcr
    rcases splitRN_cases s with ⟨rfl, he⟩ | ⟨rest, rfl, he⟩ | ⟨rest, rfl, he⟩ |
      ⟨c, rest, l', ls', rfl, hrec, he⟩
    · rfl
    · exact absurd (by simp) hcr
    · rw [he, show splitNL ('\n' :: rest) = [] :: splitNL rest from rfl]
      rw [ih rest (by simp at hs; omega) (fun hm => hcr (List.mem_cons_of_mem _ hm))]
    · have hcn : c ≠ '\n' := by
        intro hc
        subst hc
        rw [show splitRN ('\n' :: rest) = [] :: splitRN rest from rfl] at he
        have := ((List.cons.injEq _ _ _ _).mp he).1
        simp at this
      have hrest_cr : '\r' ∉ rest := fun hm => hcr (List.mem_cons_of_mem _ hm)
      rcases splitNL_cases (c :: rest) with ⟨h0, _⟩ | ⟨rest2, h0, hval⟩ |
        ⟨c2, rest2, l2, ls2, h0, _, hrec2, hval⟩
      · simp at h0
      · exact absurd ((List.cons.injEq _ _ _ _).mp h0).1 hcn
      · have hc2 : c2 = c := (((List.cons.injEq _ _ _ _).mp h0).1).symm
        have hr2 : rest2 = rest := (((List.cons.injEq _ _ _ _).mp h0).2).symm
        rw [hr2] at hrec2
        have hih : splitRN rest = splitNL rest :=
          ih rest (by simp at hs; omega) hrest_cr
        rw [hih, hrec2] at hrec
        have hl : l2 = l' := ((List.cons.injEq _ _ _ _).mp hrec).1
        have hls : ls2 = ls' := ((List.cons.injEq _ _ _ _).mp hrec).2
        rw [he, hval, hc2, hl, hls]

theorem rewriteSTP_no_cr {s : Str} (hstp : hasSTP s = true) (hcr : '\r' ∉ s) :
    '\r' ∉ rewriteSTP s := by
  rw [rewriteSTP_eq hstp]
  intro hmem
  rcases joinNL_chars hmem with ⟨l, hl, hx⟩ | hnl
  · rcases mem_map_lineF (dedupeGo_subset _ _ _ hl) with rfl | ⟨hl', _⟩
    · exact footer_no_cr hx
    · exact hcr (splitRN_chars s l hl' _ hx)
  · simp at hnl

theorem hasMal_rewriteSTP {s : Str} (hstp : hasSTP s = true) (hmal : hasMal s = false) :
    hasMal (rewriteSTP s) = false := by
  rw [rewriteSTP_eq hstp, hasMal_join]
  rw [List.any_eq_false]
  intro l hl
  rcases mem_map_lineF (dedupeGo_subset _ _ _ hl) with rfl | ⟨hl', _⟩
  · simp [hasMal_footer]
  · simp [hasMal_lines s hmal l hl']

theorem hasSTP_rewriteSTP {s : Str} (hstp : hasSTP s = true) :
    hasSTP (rewriteSTP s) = true := by
  have hfm : footerP0 ∈ dedupeGo ((splitRN s).map lineF) false :=
    footer_mem_dedupeGo (map_lineF_exists_footer hstp) map_lineF_footerEq
  obtain ⟨A, B, hAB, hB⟩ := joinNL_mem hfm
  rw [rewriteSTP_eq hstp, hAB]
  exact hasSTP_footer_decomp hB

theorem map_lineF_dedupe_id {s : Str} :
    (dedupeGo ((splitRN s).map lineF) false).map lineF =
      dedupeGo ((splitRN s).map lineF) false := by
  have h : ∀ l ∈ dedupeGo ((splitRN s).map lineF) false, lineF l = l := by
    intro l hl
    rcases mem_map_lineF (dedupeGo_subset _ _ _ hl) with rfl | ⟨_, hnm⟩
    · unfold lineF
      rw [if_pos lineMatches_footer]
    · unfold lineF
      rw [if_neg (by simp [hnm])]
  calc (dedupeGo ((splitRN s).map lineF) false).map lineF
      = (dedupeGo ((splitRN s).map lineF) false).map id := List.map_congr_left h
    _ = _ := List.map_id _

/-- The rewritten output is a fixed point of the whole transform (for
carriage-return-free inputs). -/
theorem rewriteSTP_fix {s : Str} (hstp : hasSTP s = true) (hmal : hasMal s = false)
    (hcr : '\r' ∉ s) : transformContentP0 (rewriteSTP s) = rewriteSTP s := by
  have hmalo := hasMal_rewriteSTP hstp hmal
  have hstripo : stripMalformed (rewriteSTP s) = rewriteSTP s :=
    strip_of_hasMal_eq_false hmalo
  have hstpo := hasSTP_rewriteSTP hstp
  have hcro := rewriteSTP_no_cr hstp hcr
  have hsplit_o : splitRN (rewriteSTP s) = dedupeGo ((splitRN s).map lineF) false := by
    rw [splitRN_eq_splitNL hcro, splitNL_rewriteSTP hstp]
  unfold transformContentP0
  dsimp only
  rw [hstripo, hstpo]
  simp only [if_true]
  rw [rewriteSTP_eq hstpo, hsplit_o, map_lineF_dedupe_id,
    dedupeGo_false_id _ (le_of_eq (countP_dedupeGo_false _ (map_lineF_exists_footer hstp))),
    rewriteSTP_eq hstp]

theorem transform_eq_of_hasSTP {t : Str} (h : hasSTP (stripMalformed t) = true) :
    transformContentP0 t = rewriteSTP (stripMalformed t) := by
  unfold transformContentP0
  dsimp only
  rw [h]
  simp

theorem transform_eq_of_not_hasSTP {t : Str} (h : hasSTP (stripMalformed t) = false) :
    transformContentP0 t = stripMalformed t := by
  unfold transformContentP0
  dsimp only
  rw [h]
  simp

/-- Idempotence of `part_000`'s transform on carriage-return-free inputs. -/
theorem transformP0_idem {t : Str} (hcr : '\r' ∉ t) :
    transformContentP0 (transformContentP0 t) = transformContentP0 t := by
  cases hstp : hasSTP (stripMalformed t) with
  | false =>
    rw [transform_eq_of_not_hasSTP hstp]
    have h2 : stripMalformed (stripMalformed t) = stripMalformed t := strip_idem t
    have h3 : hasSTP (stripMalformed (stripMalformed t)) = false := by rw [h2, hstp]
    rw [transform_eq_of_not_hasSTP h3, h2]
  | true =>
    rw [transform_eq_of_hasSTP hstp]
    have hcr' : '\r' ∉ stripMalformed t := fun hm => hcr (strip_subset _ hm)
    exact rewriteSTP_fix hstp (hasMal_strip t) hcr'



/-! ## Lemmas about the Album Aggregator's debounce simulation -/

theorem jsOrS_nil_default (x : Str) : jsOrS x [] = x := by
  unfold jsOrS
  by_cases h : x = [] <;> simp [h]

theorem capStep_ne {c : Str} (h : c ≠ []) (a : Arrival) : capStep c a = c := by
  unfold capStep
  rw [if_neg]
  simp [h]

theorem foldl_capStep_ne {c : Str} (h : c ≠ []) :
    ∀ as : List Arrival, List.foldl capStep c as = c := by
  intro as
  induction as with
  | nil => rfl
  | cons a rs ih => rw [List.foldl_cons, capStep_ne h, ih]

theorem foldl_capStep_nil : ∀ as : List Arrival,
    List.foldl capStep [] as = firstNonEmptyCaption as := by
  intro as
  induction as with
  | nil => rfl
  | cons a rs ih =>
    rw [List.foldl_cons]
    unfold firstNonEmptyCaption
    by_cases hc : a.caption = []
    · have h1 : capStep [] a = [] := by
        unfold capStep
        rw [if_neg]
        simp [hc]
      rw [h1, ih]
      unfold firstNonEmptyCaption
      simp [hc]
    · have h1 : capStep [] a = a.caption := by
        unfold capStep
        rw [if_pos ⟨rfl, hc⟩]
      rw [h1, foldl_capStep_ne hc]
      simp [hc]

theorem runGo_single : ∀ (rest : List Arrival) (k : Str) (buf : Buf),
    (∀ x ∈ rest, x.key = k) →
    List.Chain' (fun x y => x.t ≤ y.t ∧ y.t < x.t + 1500) rest →
    (∀ x ∈ rest.head?, x.t < buf.fireAt) →
    runGo rest [(k, buf)] =
      [(jsOrS (List.foldl capStep buf.caption rest) [],
        (buf.items ++ rest.map Arrival.item).take 10)] := by
  intro rest
  induction rest with
  | nil =>
    intro k buf _ _ _
    simp [runGo, flushUnit]
  | cons a rs ih =>
    intro k buf hk hchain hhead
    have hlt : a.t < buf.fireAt := hhead a (by simp)
    have hdec : decide (buf.fireAt ≤ a.t) = false := by
      simp
      omega
    have hfire : fireDue a.t [(k, buf)] = ([], [(k, buf)]) := by
      unfold fireDue
      simp [List.filter, hdec]
    have hkey : a.key = k := hk a (by simp)
    have hstep : albumStep [(k, buf)] a.t a.key a.caption a.item =
        [(k, ⟨capStep buf.caption a, buf.items ++ [a.item], a.t + 1500⟩)] := by
      unfold albumStep lookupBuf setBuf capStep
      rw [hkey]
      by_cases hc : buf.caption = [] ∧ a.caption ≠ [] <;> simp [hc]
    have hrun : runGo (a :: rs) [(k, buf)] =
        (fireDue a.t [(k, buf)]).1 ++
          runGo rs (albumStep (fireDue a.t [(k, buf)]).2 a.t a.key a.caption a.item) := rfl
    rw [hrun, hfire]
    simp only [List.nil_append]
    rw [hstep]
    have hih := ih k ⟨capStep buf.caption a, buf.items ++ [a.item], a.t + 1500⟩
      (fun x hx => hk x (List.mem_cons_of_mem _ hx)) hchain.tail ?hd
    case hd =>
      intro x hx
      cases rs with
      | nil => simp at hx
      | cons y rs' =>
        have hxy : x = y := by
          have := hx
          simp at this
          exact this.symm
        have := (List.chain'_cons.mp hchain).1
        subst hxy
        simp only []
        omega
    rw [hih]
    simp [List.append_assoc]

theorem runAlbum_single_key (a0 : Arrival) (rest : List Arrival)
    (hk : ∀ x ∈ rest, x.key = a0.key)
    (hchain : List.Chain' (fun x y => x.t ≤ y.t ∧ y.t < x.t + 1500) (a0 :: rest)) :
    runAlbum (a0 :: rest) =
      [(firstNonEmptyCaption (a0 :: rest),
        ((a0 :: rest).map Arrival.item).take 10)] := by
  unfold runAlbum
  have hrun : runGo (a0 :: rest) [] =
      (fireDue a0.t []).1 ++
        runGo rest (albumStep (fireDue a0.t []).2 a0.t a0.key a0.caption a0.item) := rfl
  have hfire : fireDue a0.t ([] : AggState) = ([], []) := by
    unfold fireDue
    simp
  have hstep : albumStep [] a0.t a0.key a0.caption a0.item =
      [(a0.key, ⟨capStep [] a0, [a0.item], a0.t + 1500⟩)] := by
    unfold albumStep lookupBuf setBuf capStep
    by_cases hc : a0.caption ≠ [] <;> simp [hc]
  rw [hrun, hfire]
  simp only [List.nil_append]
  rw [hstep]
  have hih := runGo_single rest a0.key ⟨capStep [] a0, [a0.item], a0.t + 1500⟩ hk ?ch ?hd
  case ch => exact hchain.tail
  case hd =>
    intro x hx
    cases rest with
    | nil => simp at hx
    | cons y rs' =>
      have hxy : x = y := by
        have := hx
        simp at this
        exact this.symm
      have := (List.chain'_cons.mp hchain).1
      subst hxy
      simp only []
      omega
  rw [hih]
  have hcap : List.foldl capStep (capStep [] a0) rest =
      firstNonEmptyCaption (a0 :: rest) := by
    rw [← List.foldl_cons, foldl_capStep_nil]
  rw [hcap, jsOrS_nil_default]
  simp

/-! ## Lemmas about the Forwarder and the handler -/

theorem fetchAll_ok_length {env : Env} : ∀ {i : Nat} {fs : List FileEntry}
    {atts : List (Str × Nat)}, fetchAll env i fs = Except.ok atts →
    atts.length = fs.length := by
  intro i fs
  induction fs generalizing i with
  | nil =>
    intro atts h
    have : atts = [] := by simpa [fetchAll] using h.symm
    simp [this]
  | cons f fs ih =>
    intro atts h
    unfold fetchAll at h
    cases hb : env.fetchBytes f.url with
    | error e => rw [hb] at h; simp [Bind.bind, Except.bind] at h
    | ok b =>
      rw [hb] at h
      cases hr : fetchAll env (i + 1) fs with
      | error e => rw [hr] at h; simp [Bind.bind, Except.bind] at h
      | ok rest =>
        rw [hr] at h
        have : atts = (jsOrS f.filename (("media-" ++ toString i ++ ".jpg").data), b) :: rest := by
          simpa [Bind.bind, Except.bind] using h.symm
        simp [this, ih hr]

theorem sendToDiscord_ok {env : Env} {c : Str} {fs : List FileEntry} {req : Request}
    (h : sendToDiscord env c fs = Except.ok req) :
    req.content = (jsOrS c []).take 1900 ∧ req.attachments.length = fs.length := by
  unfold sendToDiscord at h
  cases ha : fetchAll env 0 fs with
  | error e => rw [ha] at h; simp [Bind.bind, Except.bind] at h
  | ok atts =>
    rw [ha] at h
    simp only [Bind.bind, Except.bind] at h
    cases hp : env.postWebhook ⟨(jsOrS c []).take 1900, atts⟩ with
    | error e =>
      rw [hp] at h
      simp at h
    | ok u =>
      rw [hp] at h
      simp only [Except.ok.injEq] at h
      rw [← h]
      exact ⟨rfl, fetchAll_ok_length ha⟩

theorem flushAlbum_isOk (env : Env) (b : Buf) : (flushAlbum env b).isOk = true := by
  unfold flushAlbum
  cases h : sendToDiscord env (jsOrS b.caption []) (b.items.take 10) <;> rfl

theorem sendToDiscord_nil (env : Env) (c : Str) :
    sendToDiscord env c [] =
      (env.postWebhook ⟨(jsOrS c []).take 1900, []⟩).bind
        (fun _ => Except.ok (⟨(jsOrS c []).take 1900, []⟩ : Request)) := by
  unfold sendToDiscord fetchAll
  rfl

theorem handleP0_pure_text (env : Env) (cfg : Option Str) (st : AggState) (now : Nat)
    (m : Msg) (hf : passesChannelFilterP0 cfg m.chat = true) (hp : m.photos = [])
    (hv : m.video = none) (hd : m.document = none) :
    handleP0 env cfg st now m =
      (sendToDiscord env (jsOrS (transformContentP0 (normalizeCaption m)) ("(no text)".data))
        []).bind (fun req => Except.ok (st, Outcome.sentNow req)) := by
  unfold handleP0
  rw [hf, hp, hv, hd]
  simp [Bind.bind, Except.bind]

theorem handleP0_single_media (env : Env) (cfg : Option Str) (st : AggState) (now : Nat)
    (m : Msg) (p : Str) (hf : passesChannelFilterP0 cfg m.chat = true)
    (hp : m.photos = [p]) (hg : m.mediaGroupId = none) :
    handleP0 env cfg st now m =
      (env.getFile p).bind (fun url =>
        (sendToDiscord env (jsOrS (transformContentP0 (normalizeCaption m)) [])
          [⟨url, ("image-" ++ toString m.messageId ++ ".jpg").data⟩]).bind
          (fun req => Except.ok (st, Outcome.sentNow req))) := by
  unfold handleP0
  rw [hf, hp, hg]
  simp [Bind.bind, Except.bind]

theorem handleP0_resolution_error (cfg : Option Str) (st : AggState) (now : Nat)
    (m : Msg) (p : Str) (e : Err) (hf : passesChannelFilterP0 cfg m.chat = true)
    (hp : m.photos = [p]) :
    handleP0 (envResolveFail e) cfg st now m = Except.error e := by
  unfold handleP0
  rw [hf, hp]
  simp [Bind.bind, Except.bind, envResolveFail]

theorem fetchAll_all_ok {env : Env} (hok : ∀ u, ∃ b, env.fetchBytes u = Except.ok b) :
    ∀ (fs : List FileEntry) (i : Nat), ∃ atts, fetchAll env i fs = Except.ok atts := by
  intro fs
  induction fs with
  | nil => intro i; exact ⟨[], rfl⟩
  | cons f fs ih =>
    intro i
    obtain ⟨b, hb⟩ := hok f.url
    obtain ⟨rest, hr⟩ := ih (i + 1)
    refine ⟨(jsOrS f.filename (("media-" ++ toString i ++ ".jpg").data), b) :: rest, ?_⟩
    unfold fetchAll
    rw [hb, hr]
    rfl

theorem sendToDiscord_envPostFail (e : Err) (c : Str) (fs : List FileEntry) :
    sendToDiscord (envPostFail e) c fs = Except.error e := by
  obtain ⟨atts, ha⟩ := @fetchAll_all_ok (envPostFail e) (fun u => ⟨0, rfl⟩) fs 0
  unfold sendToDiscord
  rw [ha]
  rfl

theorem sendToDiscord_envFetchFail (e : Err) (c : Str) (f : FileEntry)
    (fs : List FileEntry) :
    sendToDiscord (envFetchFail e) c (f :: fs) = Except.error e := by
  unfold sendToDiscord fetchAll
  rfl

/-! ## Claim theorems -/

/-- C1 (counterexample): the claim that delivery errors on the immediate-send
path are caught internally is false — a `DeliveryError` from the webhook POST
on a pure-text post propagates out of the `channel_post` handler as its
error result. -/
theorem c1_counterexample :
    handleP0 (envPostFail (Err.delivery 500)) none [] 0 msgPureText =
      Except.error (Err.delivery 500) := rfl

/-- C1 (amended): errors during a *scheduled album flush* are caught
internally (the flush callback always returns `ok`, only logging), but errors
on the immediate-send path are not caught by the handler and propagate to its
caller: a failing webhook POST on a pure-text post, a failing webhook POST on
a single-media (non-album) post, a failing media-byte fetch on a single-media
post, and a failing media-URL resolution on any media post all make the
handler return that very error. -/
theorem c1_amended_error_containment :
    (∀ (env : Env) (b : Buf), (flushAlbum env b).isOk = true) ∧
    (∀ (cfg : Option Str) (st : AggState) (now : Nat) (m : Msg) (e : Err),
      passesChannelFilterP0 cfg m.chat = true → m.photos = [] → m.video = none →
      m.document = none →
      handleP0 (envPostFail e) cfg st now m = Except.error e) ∧
    (∀ (cfg : Option Str) (st : AggState) (now : Nat) (m : Msg) (p : Str) (e : Err),
      passesChannelFilterP0 cfg m.chat = true → m.photos = [p] →
      m.mediaGroupId = none →
      handleP0 (envPostFail e) cfg st now m = Except.error e) ∧
    (∀ (cfg : Option Str) (st : AggState) (now : Nat) (m : Msg) (p : Str) (e : Err),
      passesChannelFilterP0 cfg m.chat = true → m.photos = [p] →
      m.mediaGroupId = none →
      handleP0 (envFetchFail e) cfg st now m = Except.error e) ∧
    (∀ (cfg : Option Str) (st : AggState) (now : Nat) (m : Msg) (p : Str) (e : Err),
      passesChannelFilterP0 cfg m.chat = true → m.photos = [p] →
      handleP0 (envResolveFail e) cfg st now m = Except.error e) := by
  refine ⟨flushAlbum_isOk, ?_, ?_, ?_, ?_⟩
  · intro cfg st now m e hf hp hv hd
    rw [handleP0_pure_text (envPostFail e) cfg st now m hf hp hv hd, sendToDiscord_nil]
    rfl
  · intro cfg st now m p e hf hp hg
    rw [handleP0_single_media (envPostFail e) cfg st now m p hf hp hg]
    rw [show (envPostFail e).getFile p = Except.ok [] from rfl]
    rw [show (Except.ok ([] : Str)).bind (fun url =>
      (sendToDiscord (envPostFail e) (jsOrS (transformContentP0 (normalizeCaption m)) [])
        [⟨url, ("image-" ++ toString m.messageId ++ ".jpg").data⟩]).bind
        (fun req => Except.ok (st, Outcome.sentNow req))) =
      (sendToDiscord (envPostFail e) (jsOrS (transformContentP0 (normalizeCaption m)) [])
        [⟨[], ("image-" ++ toString m.messageId ++ ".jpg").data⟩]).bind
        (fun req => Except.ok (st, Outcome.sentNow req)) from rfl]
    rw [sendToDiscord_envPostFail]
    rfl
  · intro cfg st now m p e hf hp hg
    rw [handleP0_single_media (envFetchFail e) cfg st now m p hf hp hg]
    rw [show (envFetchFail e).getFile p = Except.ok ("url".data) from rfl]
    rw [show (Except.ok ("url".data)).bind (fun url =>
      (sendToDiscord (envFetchFail e) (jsOrS (transformContentP0 (normalizeCaption m)) [])
        [⟨url, ("image-" ++ toString m.messageId ++ ".jpg").data⟩]).bind
        (fun req => Except.ok (st, Outcome.sentNow req))) =
      (sendToDiscord (envFetchFail e) (jsOrS (transformContentP0 (normalizeCaption m)) [])
        [⟨"url".data, ("image-" ++ toString m.messageId ++ ".jpg").data⟩]).bind
        (fun req => Except.ok (st, Outcome.sentNow req)) from rfl]
    rw [sendToDiscord_envFetchFail]
    rfl
  · intro cfg st now m p e hf hp
    exact handleP0_resolution_error cfg st now m p e hf hp

/-- C1 (witness): the amended statement at concrete inputs — a concrete
buffer for the flush part, the concrete pure-text post, and the concrete
single-photo post under each failing environment. -/
theorem c1_witness :
    (flushAlbum envAllOk ⟨[], [], 0⟩).isOk = true ∧
    handleP0 (envPostFail (Err.delivery 500)) none [] 0 msgPureText =
      Except.error (Err.delivery 500) ∧
    handleP0 (envPostFail (Err.delivery 500)) none [] 0 msgPhoto =
      Except.error (Err.delivery 500) ∧
    handleP0 (envFetchFail (Err.fetch 404)) none [] 0 msgPhoto =
      Except.error (Err.fetch 404) ∧
    handleP0 (envResolveFail Err.resolution) none [] 0 msgPhoto =
      Except.error Err.resolution :=
  ⟨c1_amended_error_containment.1 envAllOk ⟨[], [], 0⟩,
   c1_amended_error_containment.2.1 none [] 0 msgPureText (Err.delivery 500)
     (by decide) rfl rfl rfl,
   c1_amended_error_containment.2.2.1 none [] 0 msgPhoto ("pid".data)
     (Err.delivery 500) (by decide) rfl rfl,
   c1_amended_error_containment.2.2.2.1 none [] 0 msgPhoto ("pid".data)
     (Err.fetch 404) (by decide) rfl rfl,
   c1_amended_error_containment.2.2.2.2 none [] 0 msgPhoto ("pid".data)
     Err.resolution (by decide) rfl⟩

/-- C2 (code bug): with no allow-list configured, `part_000`'s Channel Filter
accepts every post as the spec says — but `src/index.js`'s variant rejects
*every* post (its `allowedChannels.some` ranges over an empty list),
contradicting the claim and the file's own "optional filter" comment. -/
theorem c2_filter_code_bug :
    (∀ chat : Option Chat, passesChannelFilterIdx none none chat = false) ∧
    (∀ chat : Option Chat, passesChannelFilterP0 none chat = true) := by
  constructor
  · intro chat
    cases chat with
    | none => rfl
    | some c => rfl
  · intro chat
    rfl

/-- C3 (counterexample): the Content Transformer is not the identity on all
marker-free texts. `part_000` deletes the malformed-link token from
`https://@x` (no marker present, by the code's own detector), and the
`index.js` variant rewrites even the plain marker-free text `hi` (bolding
and footer). -/
theorem c3_counterexample :
    (hasSTP ("https://@x".data) = false ∧
      transformContentP0 ("https://@x".data) ≠ ("https://@x".data)) ∧
    (hasSTP ("hi".data) = false ∧
      transformContentIdx ("hi".data) ≠ ("hi".data)) := by decide

/-- C3 (amended): `part_000`'s Content Transformer is the identity on every
text that contains no malformed-link token (`https?://@…`) and no marker in
the code's sense (`@splitthepicks`, `t.me/splitthepicks`, or the bare word
`splitthepicks`, case-insensitively). -/
theorem c3_amended_identity (t : Str) (h1 : hasMal t = false) (h2 : hasSTP t = false) :
    transformContentP0 t = t := by
  have hs : stripMalformed t = t := strip_of_hasMal_eq_false h1
  rw [transform_eq_of_not_hasSTP (by rw [hs]; exact h2), hs]

/-- C3 (witness): the amended identity at the concrete marker-free text
`hello world`. -/
theorem c3_witness : transformContentP0 ("hello world".data) = ("hello world".data) :=
  c3_amended_identity ("hello world".data) (by decide) (by decide)

/-- C4 (counterexample): neither variant of the Content Transformer is
idempotent. `part_000` splits on `\r?\n` but joins with `\n`, so a carriage
return left at the end of a line (`a\r` from input `a\r\r\n@splitthepicks`)
is re-consumed by the second application; `index.js` re-bolds the first line
(`**hi**` becomes `****hi****`). -/
theorem c4_counterexample :
    (transformContentP0 (transformContentP0 ("a\r\r\n@splitthepicks".data)) ≠
      transformContentP0 ("a\r\r\n@splitthepicks".data)) ∧
    (transformContentIdx (transformContentIdx ("hi".data)) ≠
      transformContentIdx ("hi".data)) := by decide

/-- C4 (amended): `part_000`'s Content Transformer is idempotent on every
input that contains no carriage-return character (in particular the canonical
footer is not duplicated by a second application). -/
theorem c4_amended_idempotent (t : Str) (hcr : '\r' ∉ t) :
    transformContentP0 (transformContentP0 t) = transformContentP0 t :=
  transformP0_idem hcr

/-- C4 (witness): idempotence at a concrete carriage-return-free input with a
marker. -/
theorem c4_witness :
    transformContentP0 (transformContentP0 ("a @splitthepicks".data)) =
      transformContentP0 ("a @splitthepicks".data) :=
  c4_amended_idempotent ("a @splitthepicks".data) (by decide)

/-- C5 (counterexample): an input that contains the `@splitthepicks` marker
(the code's own detector sees it) whose output contains the canonical footer
zero times: step 1 strips `https://@splitthepicks` entirely before marker
detection, so no footer is produced. -/
theorem c5_counterexample :
    hasSTP ("https://@splitthepicks".data) = true ∧
    footerLineCount (transformContentP0 ("https://@splitthepicks".data)) = 0 := by decide

/-- C5 (amended): for every input whose *stripped* text still passes the
marker detection (step 2 of the code, which runs after malformed-link
removal), the output contains the canonical footer line exactly once. -/
theorem c5_amended_footer_once (t : Str) (h : hasSTP (stripMalformed t) = true) :
    footerLineCount (transformContentP0 t) = 1 := by
  rw [transform_eq_of_hasSTP h]
  exact footerLineCount_rewriteSTP h

/-- C5 (witness): exactly one footer line for the concrete input
`@splitthepicks`. -/
theorem c5_witness : footerLineCount (transformContentP0 ("@splitthepicks".data)) = 1 :=
  c5_amended_footer_once ("@splitthepicks".data) (by decide)

/-- C6: for an album of `N` items (`1 ≤ N ≤ 12`) for one key whose arrivals
are each separated by less than the 1500 ms debounce window, exactly one
flush occurs, its item order equals arrival order, and the flushed file list
is capped at the first 10 items. -/
theorem c6_album_debounce (k : Str) (arrivals : List Arrival)
    (hne : arrivals ≠ []) (hlen : arrivals.length ≤ 12)
    (hk : ∀ x ∈ arrivals, x.key = k)
    (hgap : List.Chain' (fun x y => x.t ≤ y.t ∧ y.t < x.t + 1500) arrivals) :
    (runAlbum arrivals).length = 1 ∧
    (runAlbum arrivals).map Prod.snd = [(arrivals.map Arrival.item).take 10] := by
  cases arrivals with
  | nil => exact absurd rfl hne
  | cons a0 rest =>
    have hk' : ∀ x ∈ rest, x.key = a0.key := by
      intro x hx
      rw [hk x (List.mem_cons_of_mem _ hx), hk a0 (by simp)]
    rw [runAlbum_single_key a0 rest hk' hgap]
    exact ⟨rfl, rfl⟩

/-- C6 (witness): three same-key arrivals 100 ms apart produce exactly one
flush carrying the three items in arrival order. -/
theorem c6_witness :
    (runAlbum [⟨0, "k".data, [], ⟨"u1".data, "f1".data⟩⟩,
               ⟨100, "k".data, ("cap".data), ⟨"u2".data, "f2".data⟩⟩,
               ⟨200, "k".data, [], ⟨"u3".data, "f3".data⟩⟩]).length = 1 ∧
    (runAlbum [⟨0, "k".data, [], ⟨"u1".data, "f1".data⟩⟩,
               ⟨100, "k".data, ("cap".data), ⟨"u2".data, "f2".data⟩⟩,
               ⟨200, "k".data, [], ⟨"u3".data, "f3".data⟩⟩]).map Prod.snd =
      [([⟨0, "k".data, [], ⟨"u1".data, "f1".data⟩⟩,
         ⟨100, "k".data, ("cap".data), ⟨"u2".data, "f2".data⟩⟩,
         ⟨200, "k".data, [], ⟨"u3".data, "f3".data⟩⟩].map Arrival.item).take 10] :=
  c6_album_debounce ("k".data) _ (by simp) (by decide)
    (by intro x hx; fin_cases hx <;> rfl)
    (by refine List.chain'_cons.mpr ⟨⟨by decide, by decide⟩, ?_⟩
        exact List.chain'_cons.mpr ⟨⟨by decide, by decide⟩, List.chain'_singleton _⟩)

/-- C7: under the same debounced-album hypotheses, the caption of the flushed
unit is the first non-empty caption among all arrivals for the key — later
captions never overwrite a non-empty buffer caption. -/
theorem c7_album_caption (k : Str) (arrivals : List Arrival)
    (hne : arrivals ≠ []) (hk : ∀ x ∈ arrivals, x.key = k)
    (hgap : List.Chain' (fun x y => x.t ≤ y.t ∧ y.t < x.t + 1500) arrivals) :
    (runAlbum arrivals).map Prod.fst = [firstNonEmptyCaption arrivals] := by
  cases arrivals with
  | nil => exact absurd rfl hne
  | cons a0 rest =>
    have hk' : ∀ x ∈ rest, x.key = a0.key := by
      intro x hx
      rw [hk x (List.mem_cons_of_mem _ hx), hk a0 (by simp)]
    rw [runAlbum_single_key a0 rest hk' hgap]
    rfl

/-- C7 (witness): with captions `"", "cap", "late"` the flushed caption is
`cap`, the first non-empty one. -/
theorem c7_witness :
    (runAlbum [⟨0, "q".data, [], ⟨"u1".data, "f1".data⟩⟩,
               ⟨100, "q".data, ("cap".data), ⟨"u2".data, "f2".data⟩⟩,
               ⟨200, "q".data, ("late".data), ⟨"u3".data, "f3".data⟩⟩]).map Prod.fst =
      [firstNonEmptyCaption [⟨0, "q".data, [], ⟨"u1".data, "f1".data⟩⟩,
               ⟨100, "q".data, ("cap".data), ⟨"u2".data, "f2".data⟩⟩,
               ⟨200, "q".data, ("late".data), ⟨"u3".data, "f3".data⟩⟩]] :=
  c7_album_caption ("q".data) _ (by simp)
    (by intro x hx; fin_cases hx <;> rfl)
    (by refine List.chain'_cons.mpr ⟨⟨by decide, by decide⟩, ?_⟩
        exact List.chain'_cons.mpr ⟨⟨by decide, by decide⟩, List.chain'_singleton _⟩)

/-- C8: when an allow-list is configured but the post's chat metadata is
absent, both Channel Filter variants reject the post (fail closed). -/
theorem c8_filter_fail_closed (cid cidTest : Option Str) (h : jsTruthy cid = true) :
    passesChannelFilterP0 cid none = false ∧
    passesChannelFilterIdx cid cidTest none = false := by
  constructor
  · unfold passesChannelFilterP0
    rw [h]
    rfl
  · rfl

/-- C8 (witness): the fail-closed behaviour at the concrete configuration
`@splitthepicks`. -/
theorem c8_witness :
    passesChannelFilterP0 (some ("@splitthepicks".data)) none = false ∧
    passesChannelFilterIdx (some ("@splitthepicks".data)) none none = false :=
  c8_filter_fail_closed (some ("@splitthepicks".data)) none (by decide)

/-- C9: every successful `sendToDiscord` call posts a single multipart
request whose text payload is truncated to at most 1900 characters and which
carries one attachment per file of the unit (never split across requests —
the function issues exactly one webhook POST, whose request it returns). -/
theorem c9_forwarder_truncation_single_request (env : Env) (content : Str)
    (files : List FileEntry) (req : Request)
    (h : sendToDiscord env content files = Except.ok req) :
    req.content.length ≤ 1900 ∧ req.attachments.length = files.length := by
  obtain ⟨hc, ha⟩ := sendToDiscord_ok h
  refine ⟨?_, ha⟩
  rw [hc]
  simp [List.length_take]

/-- C9 (witness): a concrete successful send with one file. -/
theorem c9_witness :
    sendToDiscord envAllOk ("hello".data) [⟨"u".data, "f.jpg".data⟩] =
      Except.ok ⟨"hello".data, [(("f.jpg".data), 7)]⟩ ∧
    ("hello".data : Str).length ≤ 1900 ∧
    ([(("f.jpg".data : Str), (7 : Nat))]).length = [(⟨"u".data, "f.jpg".data⟩ : FileEntry)].length :=
  ⟨rfl,
   (c9_forwarder_truncation_single_request envAllOk ("hello".data)
     [⟨"u".data, "f.jpg".data⟩] ⟨"hello".data, [(("f.jpg".data), 7)]⟩ rfl).1,
   (c9_forwarder_truncation_single_request envAllOk ("hello".data)
     [⟨"u".data, "f.jpg".data⟩] ⟨"hello".data, [(("f.jpg".data), 7)]⟩ rfl).2⟩

/-- C10: an accepted pure-text post (no photo, video or document) whose
transformed text is empty is still forwarded immediately, with the
placeholder content `(no text)` and an empty file list. -/
theorem c10_no_text_placeholder (env : Env) (cfg : Option Str) (st : AggState)
    (now : Nat) (m : Msg)
    (hf : passesChannelFilterP0 cfg m.chat = true) (hp : m.photos = [])
    (hv : m.video = none) (hd : m.document = none)
    (ht : transformContentP0 (normalizeCaption m) = [])
    (hpost : env.postWebhook ⟨"(no text)".data, []⟩ = Except.ok ()) :
    handleP0 env cfg st now m = Except.ok (st, Outcome.sentNow ⟨"(no text)".data, []⟩) := by
  rw [handleP0_pure_text env cfg st now m hf hp hv hd, ht]
  rw [show jsOrS [] ("(no text)".data) = "(no text)".data from rfl]
  rw [sendToDiscord_nil]
  rw [show ((jsOrS ("(no text)".data) []).take 1900) = "(no text)".data from by decide]
  rw [hpost]
  rfl

/-- C10 (witness): the placeholder is sent for a concrete empty pure-text
post under an all-succeeding environment. -/
theorem c10_witness :
    handleP0 envAllOk none [] 0 msgPureText =
      Except.ok (([] : AggState), Outcome.sentNow ⟨"(no text)".data, []⟩) :=
  c10_no_text_placeholder envAllOk none [] 0 msgPureText
    (by decide) rfl rfl rfl (by decide) rfl

end TgDs
